import Mathlib

/-!
Verification development for `persiststitch` (target-stitch), a line-oriented
pipeline that reads SCHEMA / RECORD / STATE messages, validates and transforms
records against the most recently declared schema of their stream, pushes
upserts to a batching sink (`DryRunClient` in this repository), and emits
checkpoint (state) values to stdout once the sink flushes the batch that
carries them.

The embedding models decoded Python/JSON values (`PyVal`), Python exceptions
(`PyErr`), the RFC 3339 timestamp conversion used by the `date-time` coercion,
the draft-4 validator extension `extend_with_default` (for the keyword subset
exercised by the program: `type`, `format`, `properties`), `parse_key_fields`,
`parse_record`, `push_state`, `persist_lines` over the `DryRunClient` sink,
and `do_sync`.  A separate heap model captures `copy.deepcopy` plus the
in-place coercion for the frame (no-mutation) property.

Modelling conventions, stated once:
* JSON numbers are modelled as integers (the records and schemas the claims
  exercise contain no fractional numbers); RFC 3339 inputs are modelled with
  integral seconds (no fractional-second suffix).
* Python dictionaries are association lists without duplicate keys (Python
  dicts cannot hold duplicates); `dset` updates in place preserving position,
  as Python assignment does.
* `datetime.fromtimestamp(ts)` converts a POSIX timestamp to the *local*
  wall-clock time; `.replace(tzinfo=tz.tzutc())` then reinterprets that wall
  clock as UTC.  The composite is modelled by `localOff : Int`, the local
  zone's UTC offset in seconds: the resulting aware datetime denotes the
  absolute instant `ts + localOff`.
-/

/-- Decoded Python value, as produced by `json.loads` (plus `dt`, the aware
`datetime` objects produced by the date-time coercion).  Python `None` (JSON
`null`) is the `none` constructor. -/
inductive PyVal where
  | none : PyVal
  | bool : Bool → PyVal
  | int : Int → PyVal
  | str : String → PyVal
  | dt : Int → PyVal
  | list : List PyVal → PyVal
  | dict : List (String × PyVal) → PyVal

/-- Python exception of the program: jsonschema `ValidationError` (with the
instance path accumulated while bubbling out of `descend`), `TypeError`-like
errors, and plain `Exception(...)` raises, whose implicit `__context__`
chain is the `ctx` field. -/
inductive PyErr where
  | validation : List String → String → PyErr
  | typeErr : String → PyErr
  | generic : String → Option PyErr → PyErr

namespace PyVal

mutual

/-- Structural equality on decoded values, modelling Python `==` on the
JSON-decoded data the program compares (strings, and registry keys). -/
def pvEq : PyVal → PyVal → Bool
  | .none, .none => true
  | .bool a, .bool b => a == b
  | .int a, .int b => a == b
  | .str a, .str b => a == b
  | .dt a, .dt b => a == b
  | .list xs, .list ys => pvEqL xs ys
  | .dict xs, .dict ys => pvEqD xs ys
  | _, _ => false

/-- Elementwise `pvEq` on lists. -/
def pvEqL : List PyVal → List PyVal → Bool
  | [], [] => true
  | x :: xs, y :: ys => pvEq x y && pvEqL xs ys
  | _, _ => false

/-- Fieldwise `pvEq` on dictionaries. -/
def pvEqD : List (String × PyVal) → List (String × PyVal) → Bool
  | [], [] => true
  | (k, x) :: xs, (l, y) :: ys => k == l && pvEq x y && pvEqD xs ys
  | _, _ => false

end

/-- `v is None` in Python. -/
def isNone : PyVal → Bool
  | .none => true
  | _ => false

/-- Dictionary lookup (`k in d` / `d[k]` on the happy path). -/
def dget (fields : List (String × PyVal)) (k : String) : Option PyVal :=
  match fields with
  | [] => Option.none
  | (k', v) :: rest => if k' = k then some v else dget rest k

/-- Dictionary assignment `d[k] = v`: updates in place if the key exists,
appends otherwise (Python insertion-order semantics). -/
def dset (fields : List (String × PyVal)) (k : String) (v : PyVal) :
    List (String × PyVal) :=
  match fields with
  | [] => [(k, v)]
  | (k', v') :: rest =>
      if k' = k then (k', v) :: rest else (k', v') :: dset rest k v

/-- Python `key in obj` for a string key: key membership for dicts, substring
test for strings, element membership for lists, `TypeError` otherwise. -/
def pyContains (v : PyVal) (k : String) : Except PyErr Bool :=
  match v with
  | dict fields => .ok (dget fields k).isSome
  | str s => .ok (decide (k.toList <:+: s.toList))
  | list xs => .ok (xs.any (fun v => pvEq v (str k)))
  | _ => .error (.typeErr ("argument of type is not iterable"))

/-- Python `obj[key]` for a string key: dict lookup (KeyError when absent),
`TypeError` for every other receiver (string/list indices must be integers). -/
def pySubscript (v : PyVal) (k : String) : Except PyErr PyVal :=
  match v with
  | dict fields =>
      match dget fields k with
      | some w => .ok w
      | Option.none => .error (.generic ("KeyError: " ++ k) Option.none)
  | _ => .error (.typeErr "indices must be integers")

end PyVal

/-! ## Calendar arithmetic and RFC 3339 (`strict_rfc3339.rfc3339_to_timestamp`) -/

/-- Gregorian leap year. -/
def isLeap (y : Int) : Bool :=
  (y % 4 == 0 && y % 100 != 0) || y % 400 == 0

/-- Days in a month of the proleptic Gregorian calendar. -/
def daysInMonth (y m : Int) : Int :=
  if m = 2 then (if isLeap y then 29 else 28)
  else if m = 4 ∨ m = 6 ∨ m = 9 ∨ m = 11 then 30
  else 31

/-- Days since 1970-01-01 of the civil date `(y, m, d)` (standard era-based
conversion, floor divisions). -/
def daysFromCivil (y m d : Int) : Int :=
  let y2 := if m ≤ 2 then y - 1 else y
  let era := Int.ediv y2 400
  let yoe := y2 - era * 400
  let mp := Int.emod (m + 9) 12
  let doy := Int.ediv (153 * mp + 2) 5 + d - 1
  let doe := yoe * 365 + Int.ediv yoe 4 - Int.ediv yoe 100 + doy
  era * 146097 + doe - 719468

/-- Inverse of `daysFromCivil`: civil date of a day count since 1970-01-01. -/
def civilFromDays (z0 : Int) : Int × Int × Int :=
  let z := z0 + 719468
  let era := Int.ediv z 146097
  let doe := z - era * 146097
  let yoe := Int.ediv (doe - Int.ediv doe 1460 + Int.ediv doe 36524 - Int.ediv doe 146096) 365
  let y := yoe + era * 400
  let doy := doe - (365 * yoe + Int.ediv yoe 4 - Int.ediv yoe 100)
  let mp := Int.ediv (5 * doy + 2) 153
  let d := doy - Int.ediv (153 * mp + 2) 5 + 1
  let m := if mp < 10 then mp + 3 else mp - 9
  (if m ≤ 2 then y + 1 else y, m, d)

/-- Decimal value of an ASCII digit. -/
def digitVal (c : Char) : Option Nat :=
  if c.isDigit then some (c.toNat - 48) else Option.none

/-- Two-digit decimal number. -/
def num2 (a b : Char) : Option Int := do
  let x ← digitVal a
  let y ← digitVal b
  pure (Int.ofNat (10 * x + y))

/-- Four-digit decimal number. -/
def num4 (a b c d : Char) : Option Int := do
  let x ← num2 a b
  let y ← num2 c d
  pure (100 * x + y)

/-- UTC-offset suffix of an RFC 3339 timestamp, in seconds
(`Z`/`z`, or `±hh:mm`). -/
def parseOffset : List Char → Option Int
  | ['Z'] => some 0
  | ['z'] => some 0
  | [sg, h1, h2, ':', m1, m2] => do
      let h ← num2 h1 h2
      let m ← num2 m1 m2
      if h ≤ 23 ∧ m ≤ 59 then
        if sg = '+' then some (h * 3600 + m * 60)
        else if sg = '-' then some (-(h * 3600 + m * 60))
        else Option.none
      else Option.none
  | _ => Option.none

/-- Model of `strict_rfc3339.rfc3339_to_timestamp`: parses
`YYYY-MM-DDThh:mm:ss` plus a mandatory offset (`Z` or `±hh:mm`) and returns
the POSIX timestamp in seconds, validating the calendar date and field
ranges.  Fractional seconds are outside the modelled input language. -/
def rfc3339ToTimestamp (s : String) : Option Int :=
  match s.toList with
  | y1 :: y2 :: y3 :: y4 :: c1 :: mo1 :: mo2 :: c2 :: d1 :: d2 :: tc ::
      h1 :: h2 :: c3 :: mi1 :: mi2 :: c4 :: s1 :: s2 :: rest => do
      if c1 = '-' ∧ c2 = '-' ∧ c3 = ':' ∧ c4 = ':' ∧ (tc = 'T' ∨ tc = 't') then
        let y ← num4 y1 y2 y3 y4
        let mo ← num2 mo1 mo2
        let d ← num2 d1 d2
        let h ← num2 h1 h2
        let mi ← num2 mi1 mi2
        let sec ← num2 s1 s2
        let off ← parseOffset rest
        if 1 ≤ mo ∧ mo ≤ 12 ∧ 1 ≤ d ∧ d ≤ daysInMonth y mo ∧
            h ≤ 23 ∧ mi ≤ 59 ∧ sec ≤ 59 then
          pure (daysFromCivil y mo d * 86400 + h * 3600 + mi * 60 + sec - off)
        else Option.none
      else Option.none
  | _ => Option.none

/-! ## Python `str` / `repr` formatting -/

/-- Quote character Python `repr` picks for a string: double quotes when the
string contains a single quote but no double quote, single quotes otherwise. -/
def reprQuote (s : String) : Char :=
  if s.toList.contains '\'' && !(s.toList.contains '"') then '"' else '\''

/-- Escaping of one character inside a Python string repr. -/
def escChar (q c : Char) : List Char :=
  if c = '\\' then ['\\', '\\']
  else if c = q then ['\\', q]
  else if c = '\n' then ['\\', 'n']
  else if c = '\r' then ['\\', 'r']
  else if c = '\t' then ['\\', 't']
  else [c]

/-- Python `repr` of a string. -/
def pyStrRepr (s : String) : String :=
  let q := reprQuote s
  String.mk (q :: (s.toList.flatMap (escChar q)) ++ [q])

/-- Zero-padded decimal rendering of a nonnegative integer (width `w`). -/
def padNum (w : Nat) (n : Int) : String :=
  let digits := (toString n.toNat).toList
  String.mk (List.replicate (w - digits.length) '0' ++ digits)

/-- `str()` of an aware UTC `datetime` holding POSIX timestamp `t`
(`YYYY-MM-DD hh:mm:ss+00:00`). -/
def dtStr (t : Int) : String :=
  let days := Int.ediv t 86400
  let secs := Int.emod t 86400
  let c := civilFromDays days
  padNum 4 c.1 ++ "-" ++ padNum 2 c.2.1 ++ "-" ++ padNum 2 c.2.2 ++ " " ++
    padNum 2 (Int.ediv secs 3600) ++ ":" ++ padNum 2 (Int.emod (Int.ediv secs 60) 60) ++
    ":" ++ padNum 2 (Int.emod secs 60) ++ "+00:00"

mutual

/-- Python `repr` of a decoded value. -/
def pyRepr : PyVal → String
  | .none => "None"
  | .bool true => "True"
  | .bool false => "False"
  | .int n => toString n
  | .str s => pyStrRepr s
  | .dt t =>
      let days := Int.ediv t 86400
      let secs := Int.emod t 86400
      let c := civilFromDays days
      "datetime.datetime(" ++ toString c.1 ++ ", " ++ toString c.2.1 ++ ", " ++
        toString c.2.2 ++ ", " ++ toString (Int.ediv secs 3600) ++ ", " ++
        toString (Int.emod (Int.ediv secs 60) 60) ++ ", " ++ toString (Int.emod secs 60) ++
        ", tzinfo=tzutc())"
  | .list xs => "[" ++ pyReprL xs ++ "]"
  | .dict fs => "\x7b" ++ pyReprD fs ++ "\x7d"

/-- Comma-separated reprs of list elements. -/
def pyReprL : List PyVal → String
  | [] => ""
  | [x] => pyRepr x
  | x :: y :: xs => pyRepr x ++ ", " ++ pyReprL (y :: xs)

/-- Comma-separated `key: value` reprs of dict entries. -/
def pyReprD : List (String × PyVal) → String
  | [] => ""
  | [(k, v)] => pyStrRepr k ++ ": " ++ pyRepr v
  | (k, v) :: e :: xs => pyStrRepr k ++ ": " ++ pyRepr v ++ ", " ++ pyReprD (e :: xs)

end

/-- Python `str()` of a decoded value (`"{}".format(...)` and `print` use
this): strings render without quotes, aware datetimes in their civil form,
everything else as `repr`. -/
def pyStr : PyVal → String
  | .str s => s
  | .dt t => dtStr t
  | v => pyRepr v

/-! ## The extended draft-4 validator (`extend_with_default`) -/

open PyVal

/-- Draft-4 `is_type` for one type name (booleans are not integers). -/
def typeMatches (t : String) (inst : PyVal) : Except PyErr Bool :=
  if t = "object" then .ok (match inst with | .dict _ => true | _ => false)
  else if t = "array" then .ok (match inst with | .list _ => true | _ => false)
  else if t = "string" then .ok (match inst with | .str _ => true | _ => false)
  else if t = "integer" then .ok (match inst with | .int _ => true | _ => false)
  else if t = "number" then .ok (match inst with | .int _ => true | _ => false)
  else if t = "boolean" then .ok (match inst with | .bool _ => true | _ => false)
  else if t = "null" then .ok (match inst with | .none => true | _ => false)
  else .error (.typeErr ("Unknown type: " ++ pyStrRepr t))

/-- `type` keyword with a list value: lazily test each alternative. -/
def checkTypeList (orig inst : PyVal) : List PyVal → Except PyErr Unit
  | [] => .error (.validation [] (pyRepr inst ++ " is not of type " ++ pyRepr orig))
  | tv :: rest =>
      match tv with
      | .str t => do
          let ok ← typeMatches t inst
          if ok then .ok () else checkTypeList orig inst rest
      | _ => .error (.typeErr "type list elements must be strings")

/-- The draft-4 `type` keyword. -/
def checkTypeKeyword (tv inst : PyVal) : Except PyErr Unit :=
  match tv with
  | .str t => do
      let ok ← typeMatches t inst
      if ok then .ok ()
      else .error (.validation [] (pyRepr inst ++ " is not of type " ++ pyStrRepr t))
  | .list ts => checkTypeList (.list ts) inst ts
  | _ => .error (.typeErr "type must be a string or a list")

/-- The `format` keyword under `FormatChecker`: the only format with semantic
effect in this program is `date-time`, checked with `strict_rfc3339` on string
instances (non-strings conform vacuously); other format names are not
modelled (none are used by the claims). -/
def checkFormatKeyword (fv inst : PyVal) : Except PyErr Unit :=
  if pvEq fv (.str "date-time") then
    match inst with
    | .str s =>
        if (rfc3339ToTimestamp s).isSome then .ok ()
        else .error (.validation [] (pyStrRepr s ++ " is not a 'date-time'"))
    | _ => .ok ()
  else .ok ()

/-- jsonschema `descend`: run a subvalidator on the value of property `p`,
prepending `p` to the instance path of any `ValidationError`. -/
def descendWith (rec : PyVal → PyVal → Except PyErr PyVal) (p : String)
    (sub v : PyVal) : Except PyErr PyVal :=
  match rec sub v with
  | .error (.validation path m) => .error (.validation (p :: path) m)
  | r => r

/-- First loop of `set_defaults` (`validate_properties`): for each declared
property present in the instance, validate (and, through the extension,
coerce) it with its subschema.  `rec` is the full validator one level down. -/
def vpropsFieldsGo (rec : PyVal → PyVal → Except PyErr PyVal) :
    List (String × PyVal) → List (String × PyVal) →
    Except PyErr (List (String × PyVal))
  | [], fields => .ok fields
  | (p, sub) :: rest, fields =>
      match dget fields p with
      | Option.none => vpropsFieldsGo rec rest fields
      | some v => do
          let v' ← descendWith rec p sub v
          vpropsFieldsGo rec rest (dset fields p v')

/-- `validate_properties` dispatch: the draft-4 `properties` visitor only
descends into object instances. -/
def vpropsGo (rec : PyVal → PyVal → Except PyErr PyVal)
    (props : List (String × PyVal)) (inst : PyVal) : Except PyErr PyVal :=
  match inst with
  | .dict fields => do
      let fields' ← vpropsFieldsGo rec props fields
      .ok (.dict fields')
  | _ => .ok inst

/-- One property of the second loop of `set_defaults`: if the subschema has
`format == 'date-time'` and the property is present with non-`None` value,
overwrite it with `datetime.fromtimestamp(rfc3339_to_timestamp(v))
.replace(tzinfo=tzutc())`, i.e. the instant `t + off` where `off` is the
local zone's UTC offset; a failure inside the `try` is re-raised as
`Exception('Error parsing property {p}, value {v}')` with the cause chained. -/
def cprop (off : Int) (p : String) (sub inst : PyVal) : Except PyErr PyVal := do
  let hasFmt ← pyContains sub "format"
  if hasFmt then do
    let f ← pySubscript sub "format"
    if pvEq f (.str "date-time") then do
      let c ← pyContains inst p
      if c then do
        let v ← pySubscript inst p
        if v.isNone then .ok inst
        else
          match v with
          | .str s =>
              (match rfc3339ToTimestamp s with
               | some t =>
                   (match inst with
                    | .dict fields => .ok (.dict (dset fields p (.dt (t + off))))
                    | _ => .error (.typeErr "item assignment"))
               | Option.none =>
                   .error (.generic ("Error parsing property " ++ p ++ ", value " ++ pyStr v)
                     (some (.typeErr "InvalidRFC3339Error"))))
          | _ =>
              .error (.generic ("Error parsing property " ++ p ++ ", value " ++ pyStr v)
                (some (.typeErr "rfc3339_to_timestamp expects a string")))
      else .ok inst
    else .ok inst
  else .ok inst

/-- Second loop of `set_defaults` over all declared properties. -/
def cprops (off : Int) : List (String × PyVal) → PyVal → Except PyErr PyVal
  | [], inst => .ok inst
  | (p, sub) :: rest, inst => do
      let inst' ← cprop off p sub inst
      cprops off rest inst'

/-- `extend_with_default(Draft4Validator)(schema, format_checker=FormatChecker())
.validate(instance)`, returning the in-place-mutated instance.  Keyword subset
modelled: `type`, `format`, `properties` (the latter via `set_defaults`);
within a level the keywords are evaluated in that fixed order (Python iterates
the schema dict in document order; on the success path the result is
order-independent for this subset).  `validate` raises the first error. -/
def validateWD : Nat → Int → PyVal → PyVal → Except PyErr PyVal
  | 0, _, _, _ => .error (.typeErr "RecursionError")
  | Nat.succ fuel, off, schema, inst =>
      match schema with
      | .dict sfields => do
          let _ ← (match dget sfields "type" with
                   | some tv => checkTypeKeyword tv inst
                   | Option.none => .ok ())
          let _ ← (match dget sfields "format" with
                   | some fv => checkFormatKeyword fv inst
                   | Option.none => .ok ())
          match dget sfields "properties" with
          | some (.dict props) => do
              let inst1 ← vpropsGo (fun sub v => validateWD fuel off sub v) props inst
              cprops off props inst1
          | some _ => .error (.typeErr "properties value must be a dict")
          | Option.none => .ok inst
      | _ => .error (.typeErr "schema must be a dict")

/-- Registry lookup (`stream_name in schemas` / `schemas[stream_name]`). -/
def lookupReg (schemas : List (PyVal × PyVal)) (k : PyVal) : Option PyVal :=
  match schemas with
  | [] => Option.none
  | (k', v) :: rest => if pvEq k' k then some v else lookupReg rest k

/-- Registry update (`schemas[o['stream']] = o['schema']`). -/
def regSet (schemas : List (PyVal × PyVal)) (k v : PyVal) :
    List (PyVal × PyVal) :=
  match schemas with
  | [] => [(k, v)]
  | (k', v') :: rest =>
      if pvEq k' k then (k', v) :: rest else (k', v') :: regSet rest k v

/-- Key filter of `parse_key_fields`'s list comprehension:
`[k for (k, v) in props.items() if 'key' in v and v['key'] is True]`. -/
def keyFields : List (String × PyVal) → Except PyErr (List PyVal)
  | [] => .ok []
  | (k, v) :: rest => do
      let c ← pyContains v "key"
      if c then do
        let kv ← pySubscript v "key"
        let tail ← keyFields rest
        if pvEq kv (.bool true) then .ok (.str k :: tail) else .ok tail
      else keyFields rest

/-- `parse_key_fields(stream_name, schemas)`. -/
def parse_key_fields (stream : PyVal) (schemas : List (PyVal × PyVal)) :
    Except PyErr (List PyVal) :=
  match lookupReg schemas stream with
  | Option.none => .ok []
  | some sch => do
      let c ← sch.pyContains "properties"
      if c then do
        let props ← sch.pySubscript "properties"
        match props with
        | .dict fs => keyFields fs
        | _ => .error (.typeErr "items() is only defined on dicts")
      else .ok []

/-- Body of `parse_record`'s `try` block: pick the stream's schema (empty when
unknown), deep-copy the record (the copy is the value itself in this pure
model; the heap model below accounts for aliasing), and run the extended
validator on the copy. -/
def parseRecordInner (fuel : Nat) (off : Int) (full : PyVal)
    (schemas : List (PyVal × PyVal)) : Except PyErr PyVal := do
  let stream ← full.pySubscript "stream"
  let schema := (lookupReg schemas stream).getD (.dict [])
  let record ← full.pySubscript "record"
  validateWD fuel off schema record

/-- `parse_record(full_record, schemas)`: any failure of the `try` body is
re-raised as `Exception('Error parsing record {full_record}')`, the original
exception chained as its context. -/
def parse_record (fuel : Nat) (off : Int) (full : PyVal)
    (schemas : List (PyVal × PyVal)) : Except PyErr PyVal :=
  match parseRecordInner fuel off full schemas with
  | .ok v => .ok v
  | .error e =>
      .error (.generic ("Error parsing record " ++ pyStr full) (some e))

/-! ## Pipeline driver: `DryRunClient`, `push_state`, `persist_lines`, `do_sync` -/

/-- State of one run: the driver's locals (`state`, `schemas`), the
`DryRunClient`'s buffer, and the observable event traces (pushes, flush
callback invocations, stdout writes). -/
structure RunState where
  pending : PyVal
  schemas : List (PyVal × PyVal)
  buf : List PyVal
  pushes : List (PyVal × PyVal)
  batches : List (List PyVal)
  out : List String

/-- The driver's initial state (`state = None`, `schemas = {}`, fresh client). -/
def initRun : RunState := ⟨.none, [], [], [], [], []⟩

/-- `push_state(states)`: the stdout chunks it writes — one
`"{}\n".format(state)` line per non-`None` state, in list order. -/
def push_state (states : List PyVal) : List String :=
  (states.filter (fun s => !s.isNone)).map (fun s => pyStr s ++ "\n")

/-- `DryRunClient.flush`: invoke the callback (`push_state`) on the buffered
callback args and clear the buffer. -/
def flushClient (st : RunState) : RunState :=
  { st with batches := st.batches ++ [st.buf],
            out := st.out ++ push_state st.buf,
            buf := [] }

/-- `DryRunClient.push(message, callback_arg)`: buffer the callback arg and
auto-flush when the buffer length reaches a multiple of 100. -/
def pushClient (st : RunState) (msg arg : PyVal) : RunState :=
  let st1 := { st with buf := st.buf ++ [arg], pushes := st.pushes ++ [(msg, arg)] }
  if st1.buf.length % 100 == 0 then flushClient st1 else st1

/-- One iteration of `persist_lines`' loop on the decoded line `o`
(`json.loads` is modelled as already applied: the claims quantify over parsed
messages).  `seq` is `int(time.time() * 1000)` at this iteration.  Errors
carry the state reached so far, since a Python exception aborts the loop but
leaves all prior side effects in place. -/
def stepLine (fuel : Nat) (off : Int) (seq : Int) (st : RunState) (o : PyVal) :
    Except (PyErr × RunState) RunState :=
  match o.pySubscript "type" with
  | .error e => .error (e, st)
  | .ok t =>
    if pvEq t (.str "RECORD") then
      match o.pySubscript "stream" with
      | .error e => .error (e, st)
      | .ok stream =>
        match parse_key_fields stream st.schemas with
        | .error e => .error (e, st)
        | .ok keys =>
          match parse_record fuel off o st.schemas with
          | .error e => .error (e, st)
          | .ok data =>
            let msg := PyVal.dict [("action", .str "upsert"),
                                   ("table_name", stream),
                                   ("key_names", .list keys),
                                   ("sequence", .int seq),
                                   ("data", data)]
            .ok { pushClient st msg st.pending with pending := .none }
    else if pvEq t (.str "STATE") then
      match o.pySubscript "value" with
      | .error e => .error (e, st)
      | .ok v => .ok { st with pending := v }
    else if pvEq t (.str "SCHEMA") then
      match o.pySubscript "stream" with
      | .error e => .error (e, st)
      | .ok stream =>
        match o.pySubscript "schema" with
        | .error e => .error (e, st)
        | .ok sch => .ok { st with schemas := regSet st.schemas stream sch }
    else
      .error (.generic ("Unknown message type " ++ pyStr t ++ " in message " ++ pyStr o)
        Option.none, st)

/-- The loop of `persist_lines`, from line index `i` and state `st`. -/
def persistAux (fuel : Nat) (off : Int) (seqOf : Nat → Int) :
    Nat → RunState → List PyVal → Except (PyErr × RunState) RunState
  | _, st, [] => .ok st
  | i, st, o :: rest =>
      match stepLine fuel off (seqOf i) st o with
      | .error e => .error e
      | .ok st' => persistAux fuel off seqOf (i + 1) st' rest

/-- `persist_lines(stitchclient, lines)` on decoded lines; on success the
returned driver `state` is the `pending` field of the result. -/
def persist_lines (fuel : Nat) (off : Int) (seqOf : Nat → Int)
    (objs : List PyVal) : Except (PyErr × RunState) RunState :=
  persistAux fuel off seqOf 0 initRun objs

/-- `do_sync`: run `persist_lines` under the scoped client (whose `__exit__`
flushes once more on both the normal and the error path), then print the
returned state iff it is not `None`. -/
def do_sync (fuel : Nat) (off : Int) (seqOf : Nat → Int) (objs : List PyVal) :
    Except (PyErr × RunState) RunState :=
  match persist_lines fuel off seqOf objs with
  | .ok st =>
      let st1 := flushClient st
      if st1.pending.isNone then .ok st1
      else .ok { st1 with out := st1.out ++ [pyStr st1.pending ++ "\n"] }
  | .error (e, st) => .error (e, flushClient st)

/-! ## JSON text (for the shape of emitted checkpoint lines) -/

/-- JSON whitespace. -/
def jsonWs (c : Char) : Bool :=
  c = ' ' || c = '\t' || c = '\n' || c = '\r'

/-- Drop leading JSON whitespace. -/
def skipWs : List Char → List Char
  | [] => []
  | c :: rest => if jsonWs c then skipWs rest else c :: rest

/-- Hex digit value. -/
def hexVal (c : Char) : Option Nat :=
  if c.isDigit then some (c.toNat - 48)
  else if 'a' ≤ c ∧ c ≤ 'f' then some (c.toNat - 87)
  else if 'A' ≤ c ∧ c ≤ 'F' then some (c.toNat - 55)
  else Option.none

/-- Body of a JSON string after the opening quote. -/
def jpStrGo (acc : List Char) : List Char → Option (String × List Char)
  | [] => Option.none
  | '"' :: rest => some (String.mk acc.reverse, rest)
  | '\\' :: e :: rest =>
      if e = '"' then jpStrGo ('"' :: acc) rest
      else if e = '\\' then jpStrGo ('\\' :: acc) rest
      else if e = '/' then jpStrGo ('/' :: acc) rest
      else if e = 'b' then jpStrGo ('\x08' :: acc) rest
      else if e = 'f' then jpStrGo ('\x0c' :: acc) rest
      else if e = 'n' then jpStrGo ('\n' :: acc) rest
      else if e = 'r' then jpStrGo ('\r' :: acc) rest
      else if e = 't' then jpStrGo ('\t' :: acc) rest
      else if e = 'u' then
        match rest with
        | a :: b :: c :: d :: rest2 =>
            match hexVal a, hexVal b, hexVal c, hexVal d with
            | some x, some y, some z, some w =>
                jpStrGo (Char.ofNat (((x * 16 + y) * 16 + z) * 16 + w) :: acc) rest2
            | _, _, _, _ => Option.none
        | _ => Option.none
      else Option.none
  | c :: rest =>
      if c.toNat < 32 then Option.none else jpStrGo (c :: acc) rest

/-- Digits of a natural number. -/
def natOfDigits (ds : List Char) : Nat :=
  ds.foldl (fun n c => n * 10 + (c.toNat - 48)) 0

/-- JSON number grammar (sign, integer part, optional fraction and exponent);
the returned value is the integer part (fractional numbers do not occur in
the data the claims exercise). -/
def jpNumber (cs : List Char) : Option (Int × List Char) :=
  let (neg, cs1) := match cs with
    | '-' :: r => (true, r)
    | _ => (false, cs)
  let (ds, cs2) := cs1.span (·.isDigit)
  if ds.isEmpty then Option.none
  else
    let step1 : Option (List Char) :=
      match cs2 with
      | '.' :: r =>
          let (fs, r2) := r.span (·.isDigit)
          if fs.isEmpty then Option.none else some r2
      | _ => some cs2
    match step1 with
    | Option.none => Option.none
    | some cs3 =>
        let step2 : Option (List Char) :=
          match cs3 with
          | 'e' :: r => expTail r
          | 'E' :: r => expTail r
          | _ => some cs3
        match step2 with
        | Option.none => Option.none
        | some cs4 =>
            let n : Int := Int.ofNat (natOfDigits ds)
            some (if neg then -n else n, cs4)
where
  /-- Exponent digits after `e`/`E`. -/
  expTail (r : List Char) : Option (List Char) :=
    let r1 := match r with
      | '+' :: r' => r'
      | '-' :: r' => r'
      | _ => r
    let (es, r2) := r1.span (·.isDigit)
    if es.isEmpty then Option.none else some r2

mutual

/-- Recursive-descent JSON value parser; `fuel` bounds the call depth and is
decremented on every nested call. -/
def jpValue : Nat → List Char → Option (PyVal × List Char)
  | 0, _ => Option.none
  | Nat.succ fuel, cs =>
      match skipWs cs with
      | [] => Option.none
      | c :: rest =>
          if c = 'n' then
            match rest with
            | 'u' :: 'l' :: 'l' :: r => some (.none, r)
            | _ => Option.none
          else if c = 't' then
            match rest with
            | 'r' :: 'u' :: 'e' :: r => some (.bool true, r)
            | _ => Option.none
          else if c = 'f' then
            match rest with
            | 'a' :: 'l' :: 's' :: 'e' :: r => some (.bool false, r)
            | _ => Option.none
          else if c = '"' then
            match jpStrGo [] rest with
            | some (s, r) => some (.str s, r)
            | Option.none => Option.none
          else if c = '[' then jpArray fuel (skipWs rest)
          else if c = '\x7b' then jpObject fuel (skipWs rest)
          else
            match jpNumber (c :: rest) with
            | some (n, r) => some (.int n, r)
            | Option.none => Option.none

/-- JSON array after `[` (whitespace skipped). -/
def jpArray : Nat → List Char → Option (PyVal × List Char)
  | 0, _ => Option.none
  | Nat.succ fuel, cs =>
      match cs with
      | ']' :: r => some (.list [], r)
      | _ => jpElems fuel cs []

/-- Elements of a JSON array. -/
def jpElems : Nat → List Char → List PyVal → Option (PyVal × List Char)
  | 0, _, _ => Option.none
  | Nat.succ fuel, cs, acc =>
      match jpValue fuel cs with
      | Option.none => Option.none
      | some (v, r) =>
          match skipWs r with
          | ',' :: r2 => jpElems fuel r2 (v :: acc)
          | ']' :: r2 => some (.list (v :: acc).reverse, r2)
          | _ => Option.none

/-- JSON object after the opening brace (whitespace skipped). -/
def jpObject : Nat → List Char → Option (PyVal × List Char)
  | 0, _ => Option.none
  | Nat.succ fuel, cs =>
      match cs with
      | '\x7d' :: r => some (.dict [], r)
      | _ => jpMembers fuel cs []

/-- Members of a JSON object. -/
def jpMembers : Nat → List Char → List (String × PyVal) →
    Option (PyVal × List Char)
  | 0, _, _ => Option.none
  | Nat.succ fuel, cs, acc =>
      match skipWs cs with
      | '"' :: r =>
          match jpStrGo [] r with
          | Option.none => Option.none
          | some (k, r1) =>
              match skipWs r1 with
              | ':' :: r2 =>
                  (match jpValue fuel r2 with
                   | Option.none => Option.none
                   | some (v, r3) =>
                       match skipWs r3 with
                       | ',' :: r4 => jpMembers fuel r4 ((k, v) :: acc)
                       | '\x7d' :: r4 => some (.dict ((k, v) :: acc).reverse, r4)
                       | _ => Option.none)
              | _ => Option.none
      | _ => Option.none

end

/-- A string is valid JSON text iff the parser accepts it in full (modulo
surrounding whitespace). -/
def jsonParse (s : String) : Option PyVal :=
  match jpValue (4 * (s.length + 1)) s.toList with
  | some (v, rest) => if skipWs rest = [] then some v else Option.none
  | Option.none => Option.none

/-- Escape of one character inside a JSON string literal. -/
def jsonEsc (c : Char) : List Char :=
  if c = '"' then ['\\', '"']
  else if c = '\\' then ['\\', '\\']
  else if c = '\n' then ['\\', 'n']
  else if c = '\r' then ['\\', 'r']
  else if c = '\t' then ['\\', 't']
  else [c]

mutual

/-- Reference JSON serialization (what `json.dumps` would emit for the
JSON-representable values; aware datetimes, which never occur in checkpoint
values, render as their civil string). -/
def jsonSerialize : PyVal → String
  | .none => "null"
  | .bool true => "true"
  | .bool false => "false"
  | .int n => toString n
  | .str s => String.mk ('"' :: s.toList.flatMap jsonEsc ++ ['"'])
  | .dt t => String.mk ('"' :: (dtStr t).toList.flatMap jsonEsc ++ ['"'])
  | .list xs => "[" ++ jsonSerializeL xs ++ "]"
  | .dict fs => "\x7b" ++ jsonSerializeD fs ++ "\x7d"

/-- Comma-separated serializations of list elements. -/
def jsonSerializeL : List PyVal → String
  | [] => ""
  | [x] => jsonSerialize x
  | x :: y :: xs => jsonSerialize x ++ ", " ++ jsonSerializeL (y :: xs)

/-- Comma-separated serializations of object members. -/
def jsonSerializeD : List (String × PyVal) → String
  | [] => ""
  | [(k, v)] =>
      String.mk ('"' :: k.toList.flatMap jsonEsc ++ ['"']) ++ ": " ++ jsonSerialize v
  | (k, v) :: e :: xs =>
      String.mk ('"' :: k.toList.flatMap jsonEsc ++ ['"']) ++ ": " ++ jsonSerialize v
        ++ ", " ++ jsonSerializeD (e :: xs)

end

/-! ## Reference view of a run: line kinds and checkpoint origins -/

/-- Syntactic classification of a decoded line, matching `stepLine`'s
dispatch on `o['type']` (a STATE line is classified with its value). -/
inductive LineKind where
  | record : LineKind
  | state : PyVal → LineKind
  | schema : LineKind
  | other : LineKind

/-- Classify a decoded line. -/
def lineKind (o : PyVal) : LineKind :=
  match o.pySubscript "type" with
  | .ok t =>
      if pvEq t (.str "RECORD") then .record
      else if pvEq t (.str "STATE") then
        match o.pySubscript "value" with
        | .ok v => .state v
        | .error _ => .other
      else if pvEq t (.str "SCHEMA") then .schema
      else .other
  | .error _ => .other

/-- Is the line a RECORD line? -/
def isRecordLine (o : PyVal) : Bool :=
  match lineKind o with
  | .record => true
  | _ => false

/-- Is the line a STATE line? -/
def isStateLine (o : PyVal) : Bool :=
  match lineKind o with
  | .state _ => true
  | _ => false

/-- Reference scan of the checkpoint slot: walking the lines from index `i`
with pending origin `po` (the index and value of the STATE line whose value
the driver currently holds), produce the origin attached to each RECORD
line's push, in push order, and the final pending origin. -/
def originsAux : List PyVal → Nat → Option (Nat × PyVal) →
    List (Option (Nat × PyVal)) × Option (Nat × PyVal)
  | [], _, po => ([], po)
  | o :: rest, i, po =>
      match lineKind o with
      | .record =>
          let r := originsAux rest (i + 1) Option.none
          (po :: r.1, r.2)
      | .state v => originsAux rest (i + 1) (some (i, v))
      | _ => originsAux rest (i + 1) po

/-- The checkpoint value an origin denotes (`None` when no STATE is pending). -/
def originVal : Option (Nat × PyVal) → PyVal
  | Option.none => .none
  | some (_, v) => v

/-- Number of RECORD lines. -/
def countRecords (objs : List PyVal) : Nat := objs.countP isRecordLine

/-! ## Basic lemmas -/

theorem pvEq_str_iff (v : PyVal) (s : String) :
    pvEq v (.str s) = true ↔ v = .str s := by
  cases v <;> simp [pvEq, PyVal.pvEq]

theorem originsAux_append (xs ys : List PyVal) (i : Nat)
    (po : Option (Nat × PyVal)) :
    originsAux (xs ++ ys) i po =
      ((originsAux xs i po).1 ++ (originsAux ys (i + xs.length) (originsAux xs i po).2).1,
       (originsAux ys (i + xs.length) (originsAux xs i po).2).2) := by
  induction xs generalizing i po with
  | nil => simp [originsAux]
  | cons o rest ih =>
      simp only [List.cons_append, originsAux]
      cases lineKind o <;>
        simp [ih, Nat.add_comm, Nat.add_assoc, Nat.add_left_comm, List.length_cons]

theorem originsAux_length (xs : List PyVal) (i : Nat)
    (po : Option (Nat × PyVal)) :
    (originsAux xs i po).1.length = countRecords xs := by
  induction xs generalizing i po with
  | nil => simp [originsAux, countRecords]
  | cons o rest ih =>
      simp only [originsAux, countRecords, List.countP_cons]
      cases h : lineKind o <;>
        simp [isRecordLine, h, ih, countRecords, Nat.add_comm]

theorem originsAux_skip (xs : List PyVal) (i : Nat) (po : Option (Nat × PyVal))
    (h : ∀ o ∈ xs, isRecordLine o = false ∧ isStateLine o = false) :
    originsAux xs i po = ([], po) := by
  induction xs generalizing i po with
  | nil => simp [originsAux]
  | cons o rest ih =>
      have ho := h o (by simp)
      have hrest : ∀ o ∈ rest, isRecordLine o = false ∧ isStateLine o = false :=
        fun o ho => h o (by simp [ho])
      simp only [originsAux]
      cases hk : lineKind o with
      | record => simp [isRecordLine, hk] at ho
      | state v => simp [isStateLine, hk] at ho
      | schema => simpa [hk] using ih (i + 1) po hrest
      | other => simpa [hk] using ih (i + 1) po hrest

theorem originsAux_bound (xs : List PyVal) (i : Nat) (po : Option (Nat × PyVal))
    (hpo : ∀ m w, po = some (m, w) → m < i) :
    (∀ e ∈ (originsAux xs i po).1, ∀ m w, e = some (m, w) →
        po = some (m, w) ∨ (i ≤ m ∧ m < i + xs.length)) ∧
    (∀ m w, (originsAux xs i po).2 = some (m, w) →
        po = some (m, w) ∨ (i ≤ m ∧ m < i + xs.length)) := by
  induction xs generalizing i po with
  | nil =>
      refine ⟨by simp [originsAux], ?_⟩
      intro m w h
      simp only [originsAux] at h
      exact Or.inl h
  | cons o rest ih =>
      simp only [originsAux]
      cases hk : lineKind o with
      | record =>
          have := ih (i + 1) Option.none (by intro m w h; cases h)
          refine ⟨?_, ?_⟩
          · intro e he m w hew
            rcases List.mem_cons.mp he with h | h
            · exact Or.inl (h ▸ hew)
            · rcases this.1 e h m w hew with h2 | h2
              · cases h2
              · right; simp only [List.length_cons]; omega
          · intro m w hf
            rcases this.2 m w hf with h2 | h2
            · cases h2
            · right; simp only [List.length_cons]; omega
      | state v =>
          have := ih (i + 1) (some (i, v)) (by intro m w h; cases h; omega)
          refine ⟨?_, ?_⟩
          · intro e he m w hew
            rcases this.1 e he m w hew with h2 | h2
            · cases h2; right; simp only [List.length_cons]; omega
            · right; simp only [List.length_cons]; omega
          · intro m w hf
            rcases this.2 m w hf with h2 | h2
            · cases h2; right; simp only [List.length_cons]; omega
            · right; simp only [List.length_cons]; omega
      | schema =>
          have := ih (i + 1) po (by intro m w h; have := hpo m w h; omega)
          refine ⟨?_, ?_⟩
          · intro e he m w hew
            rcases this.1 e he m w hew with h2 | h2
            · exact Or.inl h2
            · right; simp only [List.length_cons]; omega
          · intro m w hf
            rcases this.2 m w hf with h2 | h2
            · exact Or.inl h2
            · right; simp only [List.length_cons]; omega
      | other =>
          have := ih (i + 1) po (by intro m w h; have := hpo m w h; omega)
          refine ⟨?_, ?_⟩
          · intro e he m w hew
            rcases this.1 e he m w hew with h2 | h2
            · exact Or.inl h2
            · right; simp only [List.length_cons]; omega
          · intro m w hf
            rcases this.2 m w hf with h2 | h2
            · exact Or.inl h2
            · right; simp only [List.length_cons]; omega

theorem originsAux_pairwise (xs : List PyVal) (i : Nat)
    (po : Option (Nat × PyVal)) (hpo : ∀ m w, po = some (m, w) → m < i) :
    ((originsAux xs i po).1.filterMap (fun e => e.map Prod.fst)).Pairwise (· < ·) := by
  induction xs generalizing i po with
  | nil => simp [originsAux]
  | cons o rest ih =>
      simp only [originsAux]
      cases hk : lineKind o with
      | record =>
          have htail := ih (i + 1) Option.none (by intro m w h; cases h)
          cases hp : po with
          | none => simpa [hp] using htail
          | some mw =>
              obtain ⟨m, w⟩ := mw
              have hm : m < i := hpo m w hp
              simp only [hp, List.filterMap_cons, Option.map_some']
              refine List.Pairwise.cons ?_ htail
              intro n hn
              rcases List.mem_filterMap.mp hn with ⟨e, he, hfe⟩
              have : ∃ w', e = some (n, w') := by
                cases e with
                | none => simp at hfe
                | some p => exact ⟨p.2, by cases p; simp_all⟩
              obtain ⟨w', hew⟩ := this
              rcases (originsAux_bound rest (i + 1) Option.none
                  (by intro a b h; cases h)).1 e he n w' hew with h2 | h2
              · cases h2
              · omega
      | state v =>
          exact ih (i + 1) (some (i, v)) (by intro m w h; cases h; omega)
      | schema =>
          exact ih (i + 1) po (by intro m w h; have := hpo m w h; omega)
      | other =>
          exact ih (i + 1) po (by intro m w h; have := hpo m w h; omega)

theorem originsAux_final_fresh (xs : List PyVal) (i : Nat)
    (po : Option (Nat × PyVal)) (hpo : ∀ m w, po = some (m, w) → m < i)
    (m : Nat) (w : PyVal) (hf : (originsAux xs i po).2 = some (m, w)) :
    ∀ e ∈ (originsAux xs i po).1, ∀ w', e ≠ some (m, w') := by
  induction xs generalizing i po with
  | nil => simp [originsAux]
  | cons o rest ih =>
      simp only [originsAux] at hf ⊢
      cases hk : lineKind o with
      | record =>
          simp only [hk] at hf ⊢
          have hge : i + 1 ≤ m := by
            rcases (originsAux_bound rest (i + 1) Option.none
                (by intro a b h; cases h)).2 m w hf with h2 | h2
            · cases h2
            · omega
          intro e he w' hew
          rcases List.mem_cons.mp he with h | h
          · subst h
            subst hew
            have := hpo m w' rfl
            omega
          · exact ih (i + 1) Option.none (by intro a b hh; cases hh) hf e h w' hew
      | state v =>
          simp only [hk] at hf ⊢
          exact ih (i + 1) (some (i, v)) (by intro a b hh; cases hh; omega) hf
      | schema =>
          simp only [hk] at hf ⊢
          exact ih (i + 1) po (by intro a b hh; have := hpo a b hh; omega) hf
      | other =>
          simp only [hk] at hf ⊢
          exact ih (i + 1) po (by intro a b hh; have := hpo a b hh; omega) hf

theorem push_state_append (a b : List PyVal) :
    push_state (a ++ b) = push_state a ++ push_state b := by
  simp [push_state]

/-- Coherence of the `DryRunClient` bookkeeping: every flushed batch had
exactly 100 entries, the buffer holds fewer than 100, flushed batches plus
buffer are exactly the pushed callback args in order, and stdout so far is
`push_state` of the flushed args. -/
structure ClientInv (st : RunState) : Prop where
  batches_len : ∀ b ∈ st.batches, b.length = 100
  buf_lt : st.buf.length < 100
  buf_eq : st.batches.flatten ++ st.buf = st.pushes.map Prod.snd
  out_eq : st.out = push_state st.batches.flatten

theorem clientInv_init : ClientInv initRun := by
  refine ⟨?_, ?_, ?_, ?_⟩ <;> simp [initRun, push_state]

theorem pushClient_spec (st : RunState) (msg arg : PyVal) (h : ClientInv st) :
    ClientInv (pushClient st msg arg) ∧
    (pushClient st msg arg).pushes = st.pushes ++ [(msg, arg)] ∧
    (pushClient st msg arg).pending = st.pending ∧
    (pushClient st msg arg).schemas = st.schemas := by
  unfold pushClient
  by_cases hc : (st.buf ++ [arg]).length % 100 == 0
  · have hlen : st.buf.length = 99 := by
      have h1 := h.buf_lt
      have h2 : (st.buf.length + 1) % 100 = 0 := by
        simpa [Nat.beq_eq_true_eq] using hc
      omega
    simp only [hc, if_pos, flushClient]
    refine ⟨⟨?_, ?_, ?_, ?_⟩, ?_, ?_, ?_⟩
    · intro b hb
      rcases List.mem_append.mp hb with hb | hb
      · exact h.batches_len b hb
      · simp only [List.mem_singleton] at hb
        subst hb; simp [hlen]
    · simp
    · simp only [List.flatten_append, List.flatten_cons, List.flatten_nil,
        List.append_nil, List.append_assoc]
      rw [← List.append_assoc _ st.buf, h.buf_eq]
      simp
    · simp [push_state_append, h.out_eq, List.append_assoc]
    · simp
    · simp
    · simp
  · have hlen : st.buf.length + 1 < 100 := by
      have h1 := h.buf_lt
      have h2 : (st.buf.length + 1) % 100 ≠ 0 := by
        simpa [Nat.beq_eq_true_eq] using hc
      omega
    simp only [hc, if_neg, Bool.not_eq_true]
    refine ⟨⟨?_, ?_, ?_, ?_⟩, ?_, ?_, ?_⟩
    · intro b hb; exact h.batches_len b hb
    · simpa using hlen
    · simp only [List.map_append]
      rw [← List.append_assoc, h.buf_eq]; simp
    · exact h.out_eq
    · simp
    · simp
    · simp

theorem stepLine_ok_cases {fuel : Nat} {off : Int} {seq : Int} {st : RunState}
    {o : PyVal} {st' : RunState}
    (h : stepLine fuel off seq st o = .ok st') :
    (∃ v, lineKind o = .state v ∧ st' = { st with pending := v }) ∨
    (∃ msg, lineKind o = .record ∧
        st' = { pushClient st msg st.pending with pending := .none }) ∨
    (∃ sc, lineKind o = .schema ∧ st' = { st with schemas := sc }) := by
  unfold stepLine at h
  cases ht : o.pySubscript "type" with
  | error e => simp [ht] at h
  | ok t =>
      simp only [ht] at h
      cases h1 : pvEq t (.str "RECORD") with
      | true =>
          simp only [h1, if_pos] at h
          cases hs : o.pySubscript "stream" with
          | error e => simp [hs] at h
          | ok stream =>
              simp only [hs] at h
              cases hkf : parse_key_fields stream st.schemas with
              | error e => simp [hkf] at h
              | ok keys =>
                  simp only [hkf] at h
                  cases hpr : parse_record fuel off o st.schemas with
                  | error e => simp [hpr] at h
                  | ok data =>
                      simp only [hpr, Except.ok.injEq] at h
                      refine Or.inr (Or.inl ⟨_, ?_, h.symm⟩)
                      simp [lineKind, ht, h1]
      | false =>
          simp only [h1, Bool.false_eq_true, if_neg, not_false_iff] at h
          cases h2 : pvEq t (.str "STATE") with
          | true =>
              simp only [h2, if_pos] at h
              cases hv : o.pySubscript "value" with
              | error e => simp [hv] at h
              | ok v =>
                  simp only [hv, Except.ok.injEq] at h
                  refine Or.inl ⟨v, ?_, h.symm⟩
                  simp [lineKind, ht, h1, h2, hv]
          | false =>
              simp only [h2, Bool.false_eq_true, if_neg, not_false_iff] at h
              cases h3 : pvEq t (.str "SCHEMA") with
              | true =>
                  simp only [h3, if_pos] at h
                  cases hs : o.pySubscript "stream" with
                  | error e => simp [hs] at h
                  | ok stream =>
                      simp only [hs] at h
                      cases hsc : o.pySubscript "schema" with
                      | error e => simp [hsc] at h
                      | ok sch =>
                          simp only [hsc, Except.ok.injEq] at h
                          refine Or.inr (Or.inr ⟨_, ?_, h.symm⟩)
                          simp [lineKind, ht, h1, h2, h3]
              | false =>
                  simp [h3, Bool.false_eq_true, if_neg, not_false_iff] at h

theorem persistAux_master (fuel : Nat) (off : Int) (seqOf : Nat → Int)
    (objs : List PyVal) :
    ∀ (i : Nat) (po : Option (Nat × PyVal)) (st st' : RunState),
    st.pending = originVal po → ClientInv st →
    persistAux fuel off seqOf i st objs = .ok st' →
    st'.pushes.map Prod.snd =
        st.pushes.map Prod.snd ++ (originsAux objs i po).1.map originVal ∧
    st'.pending = originVal (originsAux objs i po).2 ∧ ClientInv st' := by
  induction objs with
  | nil =>
      intro i po st st' hp hc h
      simp only [persistAux, Except.ok.injEq] at h
      subst h
      simp only [originsAux, List.map_nil, List.append_nil]
      exact ⟨trivial, hp, hc⟩
  | cons o rest ih =>
      intro i po st st' hp hc h
      simp only [persistAux] at h
      cases hs : stepLine fuel off (seqOf i) st o with
      | error e => simp [hs] at h
      | ok st1 =>
          simp only [hs] at h
          rcases stepLine_ok_cases hs with ⟨v, hk, hst⟩ | ⟨msg, hk, hst⟩ |
            ⟨sc, hk, hst⟩
          · have hres := ih (i + 1) (some (i, v)) st1 st'
              (by subst hst; simp [originVal])
              (by subst hst; exact ⟨hc.1, hc.2, hc.3, hc.4⟩) h
            simp only [originsAux, hk]
            refine ⟨?_, hres.2.1, hres.2.2⟩
            rw [hres.1]
            subst hst; rfl
          · have hpc := pushClient_spec st msg st.pending hc
            have hinv1 : ClientInv st1 := by
              subst hst
              exact ⟨hpc.1.1, hpc.1.2, hpc.1.3, hpc.1.4⟩
            have hres := ih (i + 1) Option.none st1 st'
              (by subst hst; simp [originVal]) hinv1 h
            simp only [originsAux, hk]
            refine ⟨?_, hres.2.1, hres.2.2⟩
            rw [hres.1]
            have : st1.pushes = st.pushes ++ [(msg, st.pending)] := by
              subst hst; exact hpc.2.1
            rw [this, List.map_append, List.map_cons]
            simp [hp]
          · have hres := ih (i + 1) po st1 st'
              (by subst hst; simpa using hp)
              (by subst hst; exact ⟨hc.1, hc.2, hc.3, hc.4⟩) h
            simp only [originsAux, hk]
            refine ⟨?_, hres.2.1, hres.2.2⟩
            rw [hres.1]
            subst hst; rfl

theorem do_sync_master (fuel : Nat) (off : Int) (seqOf : Nat → Int)
    (objs : List PyVal) (stF : RunState)
    (h : do_sync fuel off seqOf objs = .ok stF) :
    stF.pushes.map Prod.snd = (originsAux objs 0 Option.none).1.map originVal ∧
    stF.pending = originVal (originsAux objs 0 Option.none).2 ∧
    stF.batches.flatten = stF.pushes.map Prod.snd ∧
    (∀ b ∈ stF.batches.dropLast, b.length = 100) ∧
    stF.out = push_state (stF.pushes.map Prod.snd) ++
      (if (originVal (originsAux objs 0 Option.none).2).isNone then []
       else [pyStr (originVal (originsAux objs 0 Option.none).2) ++ "\n"]) := by
  unfold do_sync at h
  cases hp : persist_lines fuel off seqOf objs with
  | error e => simp [hp] at h
  | ok st =>
      simp only [hp] at h
      have hm := persistAux_master fuel off seqOf objs 0 Option.none initRun st
        rfl clientInv_init hp
      have hpush : st.pushes.map Prod.snd =
          (originsAux objs 0 Option.none).1.map originVal := by
        simpa [initRun] using hm.1
      have hpend := hm.2.1
      have hinv := hm.2.2
      have hflush :
          (flushClient st).pushes = st.pushes ∧
          (flushClient st).pending = st.pending ∧
          (flushClient st).batches = st.batches ++ [st.buf] ∧
          (flushClient st).out = push_state (st.pushes.map Prod.snd) ∧
          (flushClient st).batches.flatten = st.pushes.map Prod.snd := by
        refine ⟨rfl, rfl, rfl, ?_, ?_⟩
        · show st.out ++ push_state st.buf = _
          rw [hinv.out_eq, ← push_state_append, hinv.buf_eq]
        · show (st.batches ++ [st.buf]).flatten = _
          simp only [List.flatten_append, List.flatten_cons, List.flatten_nil,
            List.append_nil]
          exact hinv.buf_eq
      by_cases hnone : (flushClient st).pending.isNone
      · simp only [hnone, if_pos] at h
        cases h
        refine ⟨hpush, ?_, ?_, ?_, ?_⟩
        · exact hpend
        · rw [hflush.2.2.2.2, hpush]
          exact hpush.symm
        · intro b hb
          rw [hflush.2.2.1, List.dropLast_concat] at hb
          exact hinv.batches_len b hb
        · rw [hflush.2.2.2.1]
          have : (originVal (originsAux objs 0 Option.none).2).isNone = true := by
            rw [← hpend]; exact hnone
          simp only [this, if_pos, List.append_nil]
          rw [hflush.1]
      · simp only [hnone, if_neg, Bool.not_eq_true] at h
        cases h
        refine ⟨hpush, ?_, ?_, ?_, ?_⟩
        · exact hpend
        · rw [hflush.2.2.2.2, hpush]
          exact hpush.symm
        · intro b hb
          rw [hflush.2.2.1, List.dropLast_concat] at hb
          exact hinv.batches_len b hb
        · rw [hflush.2.2.2.1]
          have hnn : (originVal (originsAux objs 0 Option.none).2).isNone = false := by
            rw [← hpend]
            exact Bool.of_not_eq_true hnone
          simp only [hnn, Bool.false_eq_true, if_neg, not_false_iff]
          rw [hflush.2.1, hpend, hflush.1]

theorem push_state_getElem (l : List PyVal) (k : Nat) (v : PyVal)
    (h : l[k]? = some v) (hv : v.isNone = false) :
    (push_state l)[(l.take k).countP (fun s => !s.isNone)]? =
      some (pyStr v ++ "\n") := by
  induction l generalizing k with
  | nil => simp at h
  | cons x xs ih =>
      cases k with
      | zero =>
          simp only [List.getElem?_cons_zero, Option.some.injEq] at h
          subst h
          simp [push_state, List.filter_cons, hv]
      | succ k =>
          simp only [List.getElem?_cons_succ] at h
          have := ih k h
          cases hx : x.isNone with
          | true =>
              simpa [push_state, List.filter_cons, List.take_succ_cons,
                List.countP_cons, hx] using this
          | false =>
              simpa [push_state, List.filter_cons, List.take_succ_cons,
                List.countP_cons, hx] using this

theorem flatten_getElem_split {α : Type} (bs : List (List α)) (k : Nat) (v : α)
    (h : bs.flatten[k]? = some v) :
    ∃ bi off b, bs[bi]? = some b ∧ b[off]? = some v ∧
      (bs.take bi).flatten.length + off = k := by
  induction bs generalizing k with
  | nil => simp at h
  | cons b bs ih =>
      by_cases hk : k < b.length
      · refine ⟨0, k, b, by simp, ?_, by simp⟩
        rw [List.flatten_cons, List.getElem?_append_left hk] at h
        exact h
      · rw [List.flatten_cons, List.getElem?_append_right (Nat.le_of_not_lt hk)] at h
        obtain ⟨bi, off, b', h1, h2, h3⟩ := ih (k - b.length) h
        refine ⟨bi + 1, off, b', by simpa using h1, h2, ?_⟩
        simp only [List.take_succ_cons, List.flatten_cons, List.length_append]
        omega

theorem pairwise_filterMap_getElem {α β : Type} (f : α → Option β)
    (R : β → β → Prop) :
    ∀ (l : List α), (l.filterMap f).Pairwise R →
    ∀ (k k' : Nat) (a b : α) (x y : β), l[k]? = some a → f a = some x →
      l[k']? = some b → f b = some y → k < k' → R x y := by
  intro l
  induction l with
  | nil => intro _ k _ a _ _ _ h; simp at h
  | cons c rest ih =>
      intro hp k k' a b x y hk hfa hk' hfb hlt
      cases k' with
      | zero => omega
      | succ k' =>
          simp only [List.getElem?_cons_succ] at hk'
          cases k with
          | zero =>
              simp only [List.getElem?_cons_zero, Option.some.injEq] at hk
              subst hk
              rw [List.filterMap_cons, hfa] at hp
              have hy : y ∈ rest.filterMap f := by
                refine List.mem_filterMap.mpr ⟨b, ?_, hfb⟩
                exact List.getElem?_mem hk'
              exact (List.pairwise_cons.mp hp).1 y hy
          | succ k =>
              simp only [List.getElem?_cons_succ] at hk
              have hptail : (rest.filterMap f).Pairwise R := by
                rw [List.filterMap_cons] at hp
                cases hfc : f c with
                | none => rwa [hfc] at hp
                | some z =>
                    rw [hfc] at hp
                    exact (List.pairwise_cons.mp hp).2
              exact ih hptail k k' a b x y hk hfa hk' hfb (by omega)

theorem origins_injective (l : List (Option (Nat × PyVal)))
    (hp : (l.filterMap (fun e => e.map Prod.fst)).Pairwise (· < ·))
    (k k' m : Nat) (v w : PyVal) (hk : l[k]? = some (some (m, v)))
    (hk' : l[k']? = some (some (m, w))) : k = k' ∧ v = w := by
  have hne : k = k' := by
    rcases Nat.lt_trichotomy k k' with h | h | h
    · have := pairwise_filterMap_getElem (fun e => e.map Prod.fst) (· < ·) l hp
        k k' _ _ m m hk rfl hk' rfl h
      omega
    · exact h
    · have := pairwise_filterMap_getElem (fun e => e.map Prod.fst) (· < ·) l hp
        k' k _ _ m m hk' rfl hk rfl h
      omega
  subst hne
  rw [hk] at hk'
  cases hk'
  exact ⟨rfl, rfl⟩

/-! ## Step equations of the driver -/

theorem stepLine_state_eq (fuel : Nat) (off seq : Int) (st : RunState)
    (o v : PyVal) (ht : o.pySubscript "type" = .ok (.str "STATE"))
    (hv : o.pySubscript "value" = .ok v) :
    stepLine fuel off seq st o = .ok { st with pending := v } := by
  have e1 : pvEq (.str "STATE") (.str "RECORD") = false := rfl
  have e2 : pvEq (.str "STATE") (.str "STATE") = true := rfl
  simp [stepLine, ht, hv, e1, e2]

theorem stepLine_record_eq (fuel : Nat) (off seq : Int) (st : RunState)
    (o stream keyv data : PyVal) (keys : List PyVal)
    (ht : o.pySubscript "type" = .ok (.str "RECORD"))
    (hs : o.pySubscript "stream" = .ok stream)
    (hk : parse_key_fields stream st.schemas = .ok keys)
    (hd : parse_record fuel off o st.schemas = .ok data)
    (hkv : keyv = PyVal.list keys) :
    stepLine fuel off seq st o =
      .ok { pushClient st
              (PyVal.dict [("action", .str "upsert"), ("table_name", stream),
                           ("key_names", keyv), ("sequence", .int seq),
                           ("data", data)])
              st.pending
            with pending := .none } := by
  subst hkv
  have e1 : pvEq (.str "RECORD") (.str "RECORD") = true := rfl
  simp [stepLine, ht, hs, hk, hd, e1]

theorem stepLine_unknown_eq (fuel : Nat) (off seq : Int) (st : RunState)
    (o t : PyVal) (ht : o.pySubscript "type" = .ok t)
    (h1 : t ≠ .str "RECORD") (h2 : t ≠ .str "STATE") (h3 : t ≠ .str "SCHEMA") :
    stepLine fuel off seq st o =
      .error (.generic ("Unknown message type " ++ pyStr t ++ " in message " ++
        pyStr o) Option.none, st) := by
  have e1 : pvEq t (.str "RECORD") = false := by
    cases hb : pvEq t (.str "RECORD") with
    | false => rfl
    | true => exact absurd ((pvEq_str_iff _ _).mp hb) h1
  have e2 : pvEq t (.str "STATE") = false := by
    cases hb : pvEq t (.str "STATE") with
    | false => rfl
    | true => exact absurd ((pvEq_str_iff _ _).mp hb) h2
  have e3 : pvEq t (.str "SCHEMA") = false := by
    cases hb : pvEq t (.str "SCHEMA") with
    | false => rfl
    | true => exact absurd ((pvEq_str_iff _ _).mp hb) h3
  simp [stepLine, ht, e1, e2, e3]

theorem persistAux_append (fuel : Nat) (off : Int) (seqOf : Nat → Int)
    (xs ys : List PyVal) :
    ∀ (i : Nat) (st : RunState),
    persistAux fuel off seqOf i st (xs ++ ys) =
      match persistAux fuel off seqOf i st xs with
      | .ok st' => persistAux fuel off seqOf (i + xs.length) st' ys
      | .error e => .error e := by
  induction xs with
  | nil => intro i st; simp [persistAux]
  | cons o rest ih =>
      intro i st
      simp only [List.cons_append, persistAux]
      cases stepLine fuel off (seqOf i) st o with
      | error e => rfl
      | ok st' =>
          dsimp only []
          have h : i + (o :: rest).length = i + 1 + rest.length := by
            simp only [List.length_cons]
            omega
          rw [h]
          exact ih (i + 1) st'

theorem pushClient_pushes (st : RunState) (msg arg : PyVal) :
    (pushClient st msg arg).pushes = st.pushes ++ [(msg, arg)] := by
  unfold pushClient
  dsimp only []
  split <;> simp [flushClient]

/-- C8: for an input sequence containing a message whose type tag is not
SCHEMA, RECORD or STATE (first failure at that message: the prefix before it
processes successfully), the driver raises the fatal "Unknown message type"
error at that message, and no later line has any effect: the state carried
at the error (pending checkpoint, registry, sink pushes, flushes, output) is
exactly the state after the prefix; `do_sync` only adds the scoped final
flush on the error path. -/
theorem C8_unknown_type_aborts (fuel : Nat) (off : Int) (seqOf : Nat → Int)
    (A B : List PyVal) (o t : PyVal) (stA : RunState)
    (ht : o.pySubscript "type" = .ok t)
    (h1 : t ≠ .str "RECORD") (h2 : t ≠ .str "STATE") (h3 : t ≠ .str "SCHEMA")
    (hA : persist_lines fuel off seqOf A = .ok stA) :
    persist_lines fuel off seqOf (A ++ o :: B) =
      .error (.generic ("Unknown message type " ++ pyStr t ++ " in message " ++
        pyStr o) Option.none, stA) ∧
    do_sync fuel off seqOf (A ++ o :: B) =
      .error (.generic ("Unknown message type " ++ pyStr t ++ " in message " ++
        pyStr o) Option.none, flushClient stA) := by
  have hper : persist_lines fuel off seqOf (A ++ o :: B) =
      .error (.generic ("Unknown message type " ++ pyStr t ++ " in message " ++
        pyStr o) Option.none, stA) := by
    unfold persist_lines at hA ⊢
    rw [persistAux_append fuel off seqOf A (o :: B) 0 initRun, hA]
    dsimp only []
    show persistAux fuel off seqOf (0 + A.length) stA (o :: B) = _
    simp only [persistAux]
    rw [stepLine_unknown_eq fuel off (seqOf (0 + A.length)) stA o t ht h1 h2 h3]
  refine ⟨hper, ?_⟩
  unfold do_sync
  rw [hper]

/-- C8 witness: the concrete message `{'type': 'FOO'}` after an empty prefix. -/
theorem C8_unknown_type_aborts_witness :
    persist_lines 10 0 (fun _ => 0)
        ([] ++ PyVal.dict [("type", .str "FOO")] :: []) =
      .error (.generic ("Unknown message type " ++ pyStr (.str "FOO") ++
        " in message " ++ pyStr (PyVal.dict [("type", .str "FOO")]))
        Option.none, initRun) ∧
    do_sync 10 0 (fun _ => 0)
        ([] ++ PyVal.dict [("type", .str "FOO")] :: []) =
      .error (.generic ("Unknown message type " ++ pyStr (.str "FOO") ++
        " in message " ++ pyStr (PyVal.dict [("type", .str "FOO")]))
        Option.none, flushClient initRun) :=
  C8_unknown_type_aborts 10 0 (fun _ => 0) [] [] (PyVal.dict [("type", .str "FOO")])
    (.str "FOO") initRun rfl
    (by simp) (by simp) (by simp) rfl

/-- C3: the driver holds at most one pending checkpoint at a time:
(i) a STATE message overwrites the single pending slot with its value
(last-write-wins, no queueing) and changes nothing else; (ii) a successful
RECORD message pushes the upsert with the current pending checkpoint as the
callback argument and resets the slot to `None`; (iii) in any successful
run, the push checkpoints are exactly the reference origin scan's values,
and one STATE occurrence is attached to at most one sink push. -/
theorem C3_single_pending_slot :
    (∀ (fuel : Nat) (off seq : Int) (st : RunState) (o v : PyVal),
      o.pySubscript "type" = .ok (.str "STATE") →
      o.pySubscript "value" = .ok v →
      stepLine fuel off seq st o = .ok { st with pending := v }) ∧
    (∀ (fuel : Nat) (off seq : Int) (st : RunState) (o stream data : PyVal)
        (keys : List PyVal),
      o.pySubscript "type" = .ok (.str "RECORD") →
      o.pySubscript "stream" = .ok stream →
      parse_key_fields stream st.schemas = .ok keys →
      parse_record fuel off o st.schemas = .ok data →
      ∃ msg, stepLine fuel off seq st o =
          .ok { pushClient st msg st.pending with pending := .none } ∧
        (pushClient st msg st.pending).pushes =
          st.pushes ++ [(msg, st.pending)]) ∧
    (∀ (fuel : Nat) (off : Int) (seqOf : Nat → Int) (objs : List PyVal)
        (stF : RunState) (k k' m : Nat) (v w : PyVal),
      do_sync fuel off seqOf objs = .ok stF →
      stF.pushes.map Prod.snd =
        (originsAux objs 0 Option.none).1.map originVal ∧
      ((originsAux objs 0 Option.none).1[k]? = some (some (m, v)) →
       (originsAux objs 0 Option.none).1[k']? = some (some (m, w)) →
       k = k' ∧ v = w)) := by
  refine ⟨?_, ?_, ?_⟩
  · intro fuel off seq st o v ht hv
    exact stepLine_state_eq fuel off seq st o v ht hv
  · intro fuel off seq st o stream data keys ht hs hk hd
    exact ⟨_, stepLine_record_eq fuel off seq st o stream _ data keys ht hs hk hd rfl,
      pushClient_pushes st _ st.pending⟩
  · intro fuel off seqOf objs stF k k' m v w hrun
    refine ⟨(do_sync_master fuel off seqOf objs stF hrun).1, ?_⟩
    intro hk hk'
    exact origins_injective (originsAux objs 0 Option.none).1
      (originsAux_pairwise objs 0 Option.none (by intro m w h; cases h))
      k k' m v w hk hk'

/-- C3 witness: a STATE message overwriting a pending checkpoint on a
concrete state. -/
theorem C3_single_pending_slot_witness :
    stepLine 10 0 0
        { initRun with pending := PyVal.int 7 }
        (PyVal.dict [("type", .str "STATE"), ("value", .int 9)]) =
      .ok { { initRun with pending := PyVal.int 7 } with pending := PyVal.int 9 } :=
  C3_single_pending_slot.1 10 0 0 { initRun with pending := PyVal.int 7 }
    (PyVal.dict [("type", .str "STATE"), ("value", .int 9)]) (PyVal.int 9)
    rfl rfl

/-- Case A of the checkpoint-ordering property: a non-null STATE followed,
before the next STATE, by a first RECORD (only other lines in between). -/
theorem c1_consumed (fuel : Nat) (off : Int) (seqOf : Nat → Int)
    (A B C : List PyVal) (sMsg rMsg v : PyVal) (stF : RunState)
    (hsk : lineKind sMsg = .state v) (hvn : v.isNone = false)
    (hrk : lineKind rMsg = .record)
    (hB : ∀ o ∈ B, isRecordLine o = false ∧ isStateLine o = false)
    (hrun : do_sync fuel off seqOf (A ++ sMsg :: (B ++ rMsg :: C)) = .ok stF) :
    (originsAux (A ++ sMsg :: (B ++ rMsg :: C)) 0 Option.none).1[countRecords A]?
        = some (some (A.length, v)) ∧
    (stF.pushes.map Prod.snd)[countRecords A]? = some v ∧
    (∀ k' w, (originsAux (A ++ sMsg :: (B ++ rMsg :: C)) 0 Option.none).1[k']?
        = some (some (A.length, w)) → k' = countRecords A ∧ w = v) ∧
    (∀ w, (originsAux (A ++ sMsg :: (B ++ rMsg :: C)) 0 Option.none).2
        ≠ some (A.length, w)) ∧
    (∃ bi boff b, stF.batches[bi]? = some b ∧ b[boff]? = some v ∧
        (stF.batches.take bi).flatten.length + boff = countRecords A) ∧
    stF.out = push_state (stF.pushes.map Prod.snd) ++
      (if (originVal (originsAux (A ++ sMsg :: (B ++ rMsg :: C)) 0 Option.none).2).isNone
       then []
       else [pyStr (originVal
         (originsAux (A ++ sMsg :: (B ++ rMsg :: C)) 0 Option.none).2) ++ "\n"]) ∧
    stF.out[((stF.pushes.map Prod.snd).take (countRecords A)).countP
        (fun s => !s.isNone)]? = some (pyStr v ++ "\n") := by
  have hm := do_sync_master fuel off seqOf _ stF hrun
  have h2 : originsAux (sMsg :: (B ++ rMsg :: C)) A.length
      (originsAux A 0 Option.none).2 =
      originsAux (B ++ rMsg :: C) (A.length + 1) (some (A.length, v)) := by
    simp only [originsAux, hsk]
  have h4 : originsAux B (A.length + 1) (some (A.length, v)) =
      ([], some (A.length, v)) :=
    originsAux_skip B (A.length + 1) _ hB
  have h5 : originsAux (rMsg :: C) (A.length + 1 + B.length) (some (A.length, v)) =
      (some (A.length, v) ::
         (originsAux C (A.length + 1 + B.length + 1) Option.none).1,
       (originsAux C (A.length + 1 + B.length + 1) Option.none).2) := by
    simp only [originsAux, hrk]
  have hpair : originsAux (A ++ sMsg :: (B ++ rMsg :: C)) 0 Option.none =
      ((originsAux A 0 Option.none).1 ++ some (A.length, v) ::
         (originsAux C (A.length + 1 + B.length + 1) Option.none).1,
       (originsAux C (A.length + 1 + B.length + 1) Option.none).2) := by
    rw [originsAux_append]
    rw [show (0 : Nat) + A.length = A.length from by omega]
    rw [h2, originsAux_append, h4]
    dsimp only
    rw [h5]
    simp
  have hlA : (originsAux A 0 Option.none).1.length = countRecords A :=
    originsAux_length A 0 Option.none
  have hfirst : (originsAux (A ++ sMsg :: (B ++ rMsg :: C)) 0 Option.none).1[countRecords A]?
      = some (some (A.length, v)) := by
    rw [hpair]
    dsimp only
    rw [← hlA, List.getElem?_append_right (Nat.le_refl _)]
    simp
  have hpushk : (stF.pushes.map Prod.snd)[countRecords A]? = some v := by
    rw [hm.1, List.getElem?_map, hfirst]
    rfl
  refine ⟨hfirst, hpushk, ?_, ?_, ?_, hm.2.2.2.2, ?_⟩
  · intro k' w hk'
    exact origins_injective _
      (originsAux_pairwise _ 0 Option.none (by intro m w h; cases h))
      k' (countRecords A) A.length w v hk' hfirst
  · intro w hw
    rw [hpair] at hw
    dsimp only at hw
    rcases (originsAux_bound C (A.length + 1 + B.length + 1) Option.none
        (by intro m w h; cases h)).2 A.length w hw with h | h
    · cases h
    · omega
  · have hfl : stF.batches.flatten[countRecords A]? = some v := by
      rw [hm.2.2.1]; exact hpushk
    exact flatten_getElem_split stF.batches (countRecords A) v hfl
  · have hps := push_state_getElem (stF.pushes.map Prod.snd) (countRecords A) v
      hpushk hvn
    rw [hm.2.2.2.2]
    have hlt : ((stF.pushes.map Prod.snd).take (countRecords A)).countP
        (fun s => !s.isNone) < (push_state (stF.pushes.map Prod.snd)).length := by
      rcases List.getElem?_eq_some_iff.mp hps with ⟨hl, _⟩
      exact hl
    rw [List.getElem?_append_left hlt]
    exact hps

/-- Case B of the checkpoint-ordering property: a STATE overwritten by the
next STATE with no RECORD in between is attached to no push and is not the
final pending value: the occurrence is never emitted. -/
theorem c1_overwritten (fuel : Nat) (off : Int) (seqOf : Nat → Int)
    (A B C : List PyVal) (s1 s2 v w : PyVal) (stF : RunState)
    (h1k : lineKind s1 = .state v) (h2k : lineKind s2 = .state w)
    (hB : ∀ o ∈ B, isRecordLine o = false ∧ isStateLine o = false)
    (hrun : do_sync fuel off seqOf (A ++ s1 :: (B ++ s2 :: C)) = .ok stF) :
    (∀ (k' : Nat) (w' : PyVal),
        (originsAux (A ++ s1 :: (B ++ s2 :: C)) 0 Option.none).1[k']? ≠
        some (some (A.length, w'))) ∧
    (∀ (w' : PyVal), (originsAux (A ++ s1 :: (B ++ s2 :: C)) 0 Option.none).2 ≠
        some (A.length, w')) ∧
    stF.pushes.map Prod.snd =
      (originsAux (A ++ s1 :: (B ++ s2 :: C)) 0 Option.none).1.map originVal ∧
    stF.out = push_state (stF.pushes.map Prod.snd) ++
      (if (originVal (originsAux (A ++ s1 :: (B ++ s2 :: C)) 0 Option.none).2).isNone
       then []
       else [pyStr (originVal
         (originsAux (A ++ s1 :: (B ++ s2 :: C)) 0 Option.none).2) ++ "\n"]) := by
  have hm := do_sync_master fuel off seqOf _ stF hrun
  have h2 : originsAux (s1 :: (B ++ s2 :: C)) A.length
      (originsAux A 0 Option.none).2 =
      originsAux (B ++ s2 :: C) (A.length + 1) (some (A.length, v)) := by
    simp only [originsAux, h1k]
  have h4 : originsAux B (A.length + 1) (some (A.length, v)) =
      ([], some (A.length, v)) :=
    originsAux_skip B (A.length + 1) _ hB
  have h5 : originsAux (s2 :: C) (A.length + 1 + B.length) (some (A.length, v)) =
      originsAux C (A.length + 1 + B.length + 1)
        (some (A.length + 1 + B.length, w)) := by
    simp only [originsAux, h2k]
  have hpair : originsAux (A ++ s1 :: (B ++ s2 :: C)) 0 Option.none =
      ((originsAux A 0 Option.none).1 ++
         (originsAux C (A.length + 1 + B.length + 1)
           (some (A.length + 1 + B.length, w))).1,
       (originsAux C (A.length + 1 + B.length + 1)
         (some (A.length + 1 + B.length, w))).2) := by
    rw [originsAux_append]
    rw [show (0 : Nat) + A.length = A.length from by omega]
    rw [h2, originsAux_append, h4]
    dsimp only
    rw [h5]
    simp
  have hboundA := originsAux_bound A 0 Option.none (by intro m w h; cases h)
  have hboundC := originsAux_bound C (A.length + 1 + B.length + 1)
    (some (A.length + 1 + B.length, w)) (by intro m w' h; cases h; omega)
  refine ⟨?_, ?_, hm.1, hm.2.2.2.2⟩
  · intro k' w' hk'
    rw [hpair] at hk'
    dsimp only at hk'
    have hmemb := List.getElem?_mem hk'
    rcases List.mem_append.mp hmemb with hmm | hmm
    · rcases hboundA.1 _ hmm A.length w' rfl with h | h
      · cases h
      · omega
    · rcases hboundC.1 _ hmm A.length w' rfl with h | h
      · simp only [Option.some.injEq, Prod.mk.injEq] at h
        exact absurd h.1 (by omega)
      · omega
  · intro w' hw'
    rw [hpair] at hw'
    dsimp only at hw'
    rcases hboundC.2 A.length w' hw' with h | h
    · simp only [Option.some.injEq, Prod.mk.injEq] at h
      exact absurd h.1 (by omega)
    · omega

/-- C1: checkpoint ordering.  Part (a): for every run of the driver on a
sequence containing a non-null STATE (at position `|A|`) followed — before
the next STATE — by a first RECORD, the STATE's value is attached to exactly
that RECORD's push (push number `countRecords A`), to no other push, and is
not the final pending value; it is emitted in the flush whose batch contains
that push, exactly once, at the output position determined by that push
(the whole output is `push_state` of the pushed checkpoints followed by the
final-state line if any).  Part (b): a STATE overwritten by the next STATE
before any RECORD is attached to no push and is never emitted. -/
theorem C1_checkpoint_ordering :
    (∀ (fuel : Nat) (off : Int) (seqOf : Nat → Int) (A B C : List PyVal)
        (sMsg rMsg v : PyVal) (stF : RunState),
      lineKind sMsg = .state v → v.isNone = false → lineKind rMsg = .record →
      (∀ o ∈ B, isRecordLine o = false ∧ isStateLine o = false) →
      do_sync fuel off seqOf (A ++ sMsg :: (B ++ rMsg :: C)) = .ok stF →
      (originsAux (A ++ sMsg :: (B ++ rMsg :: C)) 0 Option.none).1[countRecords A]?
          = some (some (A.length, v)) ∧
      (stF.pushes.map Prod.snd)[countRecords A]? = some v ∧
      (∀ k' w, (originsAux (A ++ sMsg :: (B ++ rMsg :: C)) 0 Option.none).1[k']?
          = some (some (A.length, w)) → k' = countRecords A ∧ w = v) ∧
      (∀ w, (originsAux (A ++ sMsg :: (B ++ rMsg :: C)) 0 Option.none).2
          ≠ some (A.length, w)) ∧
      (∃ bi boff b, stF.batches[bi]? = some b ∧ b[boff]? = some v ∧
          (stF.batches.take bi).flatten.length + boff = countRecords A) ∧
      stF.out = push_state (stF.pushes.map Prod.snd) ++
        (if (originVal (originsAux (A ++ sMsg :: (B ++ rMsg :: C)) 0 Option.none).2).isNone
         then []
         else [pyStr (originVal
           (originsAux (A ++ sMsg :: (B ++ rMsg :: C)) 0 Option.none).2) ++ "\n"]) ∧
      stF.out[((stF.pushes.map Prod.snd).take (countRecords A)).countP
          (fun s => !s.isNone)]? = some (pyStr v ++ "\n")) ∧
    (∀ (fuel : Nat) (off : Int) (seqOf : Nat → Int) (A B C : List PyVal)
        (s1 s2 v w : PyVal) (stF : RunState),
      lineKind s1 = .state v → lineKind s2 = .state w →
      (∀ o ∈ B, isRecordLine o = false ∧ isStateLine o = false) →
      do_sync fuel off seqOf (A ++ s1 :: (B ++ s2 :: C)) = .ok stF →
      (∀ (k' : Nat) (w' : PyVal),
          (originsAux (A ++ s1 :: (B ++ s2 :: C)) 0 Option.none).1[k']? ≠
          some (some (A.length, w'))) ∧
      (∀ (w' : PyVal), (originsAux (A ++ s1 :: (B ++ s2 :: C)) 0 Option.none).2 ≠
          some (A.length, w')) ∧
      stF.pushes.map Prod.snd =
        (originsAux (A ++ s1 :: (B ++ s2 :: C)) 0 Option.none).1.map originVal ∧
      stF.out = push_state (stF.pushes.map Prod.snd) ++
        (if (originVal (originsAux (A ++ s1 :: (B ++ s2 :: C)) 0 Option.none).2).isNone
         then []
         else [pyStr (originVal
           (originsAux (A ++ s1 :: (B ++ s2 :: C)) 0 Option.none).2) ++ "\n"])) := by
  constructor
  · intro fuel off seqOf A B C sMsg rMsg v stF hsk hvn hrk hB hrun
    exact c1_consumed fuel off seqOf A B C sMsg rMsg v stF hsk hvn hrk hB hrun
  · intro fuel off seqOf A B C s1 s2 v w stF h1k h2k hB hrun
    exact c1_overwritten fuel off seqOf A B C s1 s2 v w stF h1k h2k hB hrun

/-- Concrete STATE line for the C1 witness run. -/
def c1wState : PyVal := .dict [("type", .str "STATE"), ("value", .int 5)]

/-- Concrete RECORD line for the C1 witness run. -/
def c1wRecord : PyVal :=
  .dict [("type", .str "RECORD"), ("stream", .str "s"), ("record", .dict [])]

/-- Final state of the C1 witness run. -/
def c1wStF : RunState :=
  { pending := .none, schemas := [], buf := [],
    pushes := [(PyVal.dict [("action", .str "upsert"), ("table_name", .str "s"),
      ("key_names", .list []), ("sequence", .int 0), ("data", .dict [])],
      .int 5)],
    batches := [[PyVal.int 5]],
    out := ["5\n"] }

/-- C1 witness: a STATE of value `5` directly followed by one RECORD; the
value is attached to push 0 and its line is the first output line. -/
theorem C1_checkpoint_ordering_witness :
    (c1wStF.pushes.map Prod.snd)[countRecords ([] : List PyVal)]? =
      some (PyVal.int 5) ∧
    c1wStF.out[((c1wStF.pushes.map Prod.snd).take
        (countRecords ([] : List PyVal))).countP (fun s => !s.isNone)]? =
      some (pyStr (PyVal.int 5) ++ "\n") := by
  have h := C1_checkpoint_ordering.1 10 0 (fun _ => 0) [] [] [] c1wState
    c1wRecord (.int 5) c1wStF rfl rfl rfl (by simp) rfl
  exact ⟨h.2.1, h.2.2.2.2.2.2⟩

/-- C4: on normal end of input the driver returns the final pending
checkpoint (the reference scan's final origin value); it is emitted iff it
is non-null, exactly once, as the single line after the final flush's
output; and its origin was attached to no sink push. -/
theorem C4_final_state_emission (fuel : Nat) (off : Int) (seqOf : Nat → Int)
    (objs : List PyVal) (stF : RunState)
    (hrun : do_sync fuel off seqOf objs = .ok stF) :
    stF.pending = originVal (originsAux objs 0 Option.none).2 ∧
    (stF.pending.isNone = false →
      stF.out = push_state (stF.pushes.map Prod.snd) ++
        [pyStr stF.pending ++ "\n"]) ∧
    (stF.pending.isNone = true →
      stF.out = push_state (stF.pushes.map Prod.snd)) ∧
    (∀ (m : Nat) (w : PyVal), (originsAux objs 0 Option.none).2 = some (m, w) →
      ∀ (k : Nat) (w' : PyVal),
        (originsAux objs 0 Option.none).1[k]? ≠ some (some (m, w'))) := by
  have hm := do_sync_master fuel off seqOf objs stF hrun
  refine ⟨hm.2.1, ?_, ?_, ?_⟩
  · intro hnn
    rw [hm.2.2.2.2]
    have : (originVal (originsAux objs 0 Option.none).2).isNone = false := by
      rw [← hm.2.1]; exact hnn
    simp only [this, Bool.false_eq_true, if_neg, not_false_iff]
    rw [← hm.2.1]
  · intro hnn
    rw [hm.2.2.2.2]
    have : (originVal (originsAux objs 0 Option.none).2).isNone = true := by
      rw [← hm.2.1]; exact hnn
    simp [this]
  · intro m w hfin k w' hk
    have hmem := List.getElem?_mem hk
    exact originsAux_final_fresh objs 0 Option.none (by intro a b h; cases h)
      m w hfin _ hmem w' rfl

/-- Concrete STATE line for the C4 witness run. -/
def c4wMsg : PyVal :=
  .dict [("type", .str "STATE"), ("value", .dict [("offset", .int 1)])]

/-- Final state of the C4 witness run. -/
def c4wStF : RunState :=
  { pending := .dict [("offset", .int 1)], schemas := [], buf := [],
    pushes := [], batches := [[]],
    out := ["\x7b'offset': 1\x7d\n"] }

/-- C4 witness: a single trailing STATE with no RECORD after it is returned
by the driver and emitted as the only output line, after the final flush. -/
theorem C4_final_state_emission_witness :
    c4wStF.pending = originVal (originsAux [c4wMsg] 0 Option.none).2 ∧
    c4wStF.out = push_state (c4wStF.pushes.map Prod.snd) ++
      [pyStr c4wStF.pending ++ "\n"] := by
  have h := C4_final_state_emission 10 0 (fun _ => 0) [c4wMsg] c4wStF rfl
  exact ⟨h.1, h.2.1 rfl⟩

/-! ## Transform-level lemmas: dictionary updates, schema well-formedness -/

theorem dget_dset_self (fields : List (String × PyVal)) (k : String) (v : PyVal) :
    dget (dset fields k v) k = some v := by
  induction fields with
  | nil => simp [dset, dget]
  | cons e rest ih =>
      obtain ⟨k', v'⟩ := e
      by_cases h : k' = k <;> simp [dset, dget, h, ih]

theorem dget_dset_ne (fields : List (String × PyVal)) (k q : String) (v : PyVal)
    (h : q ≠ k) : dget (dset fields k v) q = dget fields q := by
  induction fields with
  | nil =>
      simp only [dset, dget]
      rw [if_neg (fun hh : k = q => h hh.symm)]
  | cons e rest ih =>
      obtain ⟨k', v'⟩ := e
      simp only [dset]
      by_cases h1 : k' = k
      · subst h1
        rw [if_pos rfl]
        simp only [dget]
        simp only [if_neg (show ¬k' = q from fun hh => h hh.symm)]
      · rw [if_neg h1]
        simp only [dget]
        by_cases h2 : k' = q
        · simp only [if_pos h2]
        · simp only [if_neg h2]
          exact ih

theorem dget_mem (fields : List (String × PyVal)) (k : String) (v : PyVal)
    (h : dget fields k = some v) : (k, v) ∈ fields := by
  induction fields with
  | nil => simp [dget] at h
  | cons e rest ih =>
      obtain ⟨k', v'⟩ := e
      simp only [dget] at h
      by_cases h1 : k' = k
      · rw [if_pos h1] at h
        injection h with h2
        subst h1
        subst h2
        exact List.mem_cons_self _ _
      · rw [if_neg h1] at h
        exact List.mem_cons_of_mem _ (ih h)

mutual

/-- Every dictionary anywhere inside the value has pairwise-distinct keys
(Python dictionaries cannot hold duplicates; the association lists of the
embedding must mirror that).  Used as the well-formedness assumption on
decoded schemas. -/
def nodupKeys : PyVal → Bool
  | .dict fields => decide ((fields.map Prod.fst).Nodup) && nodupKeysFields fields
  | .list xs => nodupKeysL xs
  | _ => true

/-- All field values have duplicate-free dictionaries. -/
def nodupKeysFields : List (String × PyVal) → Bool
  | [] => true
  | (_, v) :: rest => nodupKeys v && nodupKeysFields rest

/-- All list elements have duplicate-free dictionaries. -/
def nodupKeysL : List PyVal → Bool
  | [] => true
  | v :: rest => nodupKeys v && nodupKeysL rest

end

theorem nodupKeysFields_mem (fields : List (String × PyVal))
    (h : nodupKeysFields fields = true) (k : String) (v : PyVal)
    (hm : (k, v) ∈ fields) : nodupKeys v = true := by
  induction fields with
  | nil => simp at hm
  | cons e rest ih =>
      obtain ⟨k', v'⟩ := e
      simp only [nodupKeysFields, Bool.and_eq_true] at h
      rcases List.mem_cons.mp hm with hh | hh
      · cases hh; exact h.1
      · exact ih h.2 hh

theorem nodupKeys_dict (fields : List (String × PyVal))
    (h : nodupKeys (.dict fields) = true) :
    (fields.map Prod.fst).Nodup ∧ nodupKeysFields fields = true := by
  simp only [nodupKeys, Bool.and_eq_true, decide_eq_true_eq] at h
  exact h

theorem nodupKeys_dget (fields : List (String × PyVal)) (k : String)
    (v : PyVal) (h : nodupKeys (.dict fields) = true)
    (hg : dget fields k = some v) : nodupKeys v = true :=
  nodupKeysFields_mem fields (nodupKeys_dict fields h).2 k v (dget_mem fields k v hg)

/-- The effect of one `set_defaults` coercion iteration on the value of its
property: leaves it unchanged unless the subschema flags `date-time`, in
which case a non-`None` value must be a parseable RFC 3339 string and
becomes the aware datetime `t + off`. -/
def cpropVal (off : Int) (sub w : PyVal) : Except PyErr PyVal := do
  let hasFmt ← sub.pyContains "format"
  if hasFmt then do
    let f ← sub.pySubscript "format"
    if pvEq f (.str "date-time") then
      if w.isNone then .ok w
      else
        match w with
        | .str s =>
            (match rfc3339ToTimestamp s with
             | some t => .ok (.dt (t + off))
             | Option.none =>
                 .error (.generic ("Error parsing property , value " ++ pyStr w)
                   (some (.typeErr "InvalidRFC3339Error"))))
        | _ =>
            .error (.generic ("Error parsing property , value " ++ pyStr w)
              (some (.typeErr "rfc3339_to_timestamp expects a string")))
    else .ok w
  else .ok w

theorem cpropVal_dict (off : Int) (sub : PyVal) (g : List (String × PyVal))
    (w : PyVal) (h : cpropVal off sub (.dict g) = .ok w) : w = .dict g := by
  unfold cpropVal at h
  cases hc : sub.pyContains "format" with
  | error e => simp [hc, Bind.bind, Except.bind] at h
  | ok hasFmt =>
      simp only [hc, Bind.bind, Except.bind] at h
      cases hasFmt with
      | false => simp only [Bool.false_eq_true, if_neg, not_false_iff,
          Except.ok.injEq] at h; exact h.symm
      | true =>
          simp only [if_pos] at h
          cases hf : sub.pySubscript "format" with
          | error e => simp [hf] at h
          | ok f =>
              simp only [hf] at h
              cases hfe : pvEq f (.str "date-time") with
              | false =>
                  simp only [hfe, Bool.false_eq_true, if_neg, not_false_iff,
                    Except.ok.injEq] at h
                  exact h.symm
              | true =>
                  simp only [hfe, if_pos, PyVal.isNone] at h
                  simp at h

theorem cprop_key (off : Int) (p : String) (sub : PyVal)
    (fields : List (String × PyVal)) (inst' w : PyVal)
    (h : cprop off p sub (.dict fields) = .ok inst')
    (hw : dget fields p = some w) :
    ∃ w' g, cpropVal off sub w = .ok w' ∧ inst' = .dict g ∧
      dget g p = some w' ∧ ∀ q, q ≠ p → dget g q = dget fields q := by
  unfold cprop at h
  unfold cpropVal
  cases hc : sub.pyContains "format" with
  | error e => simp [hc, Bind.bind, Except.bind] at h
  | ok hasFmt =>
      simp only [hc, Bind.bind, Except.bind] at h ⊢
      cases hasFmt with
      | false =>
          simp only [Bool.false_eq_true, if_neg, not_false_iff,
            Except.ok.injEq] at h ⊢
          exact ⟨w, fields, rfl, h.symm, hw, fun q hq => rfl⟩
      | true =>
          simp only [if_pos] at h ⊢
          cases hf : sub.pySubscript "format" with
          | error e => simp [hf] at h
          | ok f =>
              simp only [hf] at h ⊢
              cases hfe : pvEq f (.str "date-time") with
              | false =>
                  simp only [hfe, Bool.false_eq_true, if_neg, not_false_iff,
                    Except.ok.injEq] at h ⊢
                  exact ⟨w, fields, rfl, h.symm, hw, fun q hq => rfl⟩
              | true =>
                  simp only [hfe, if_pos] at h ⊢
                  have hcont : (PyVal.dict fields).pyContains p = .ok true := by
                    simp [PyVal.pyContains, hw]
                  have hsub : (PyVal.dict fields).pySubscript p = .ok w := by
                    simp [PyVal.pySubscript, hw]
                  rw [hcont] at h
                  simp only [if_pos] at h
                  rw [hsub] at h
                  cases hn : w.isNone with
                  | true =>
                      simp only [hn, if_pos, Except.ok.injEq] at h ⊢
                      exact ⟨w, fields, rfl, h.symm, hw, fun q hq => rfl⟩
                  | false =>
                      simp only [hn, Bool.false_eq_true, if_neg,
                        not_false_iff] at h ⊢
                      cases w with
                      | str s =>
                          cases hts : rfc3339ToTimestamp s with
                          | none => simp [hts] at h
                          | some t =>
                              simp only [hts, Except.ok.injEq] at h ⊢
                              refine ⟨.dt (t + off), dset fields p (.dt (t + off)),
                                rfl, h.symm, dget_dset_self fields p _, ?_⟩
                              intro q hq
                              exact dget_dset_ne fields p q _ hq
                      | none => simp [PyVal.isNone] at hn
                      | bool b => simp at h
                      | int n => simp at h
                      | dt t => simp at h
                      | list xs => simp at h
                      | dict fs => simp at h

theorem cprop_preserve (off : Int) (p : String) (sub : PyVal)
    (fields : List (String × PyVal)) (inst' : PyVal)
    (h : cprop off p sub (.dict fields) = .ok inst') :
    ∃ g, inst' = .dict g ∧ ∀ q, q ≠ p → dget g q = dget fields q := by
  unfold cprop at h
  cases hc : sub.pyContains "format" with
  | error e => simp [hc, Bind.bind, Except.bind] at h
  | ok hasFmt =>
      simp only [hc, Bind.bind, Except.bind] at h
      cases hasFmt with
      | false =>
          simp only [Bool.false_eq_true, if_neg, not_false_iff,
            Except.ok.injEq] at h
          exact ⟨fields, h.symm, fun q hq => rfl⟩
      | true =>
          simp only [if_pos] at h
          cases hf : sub.pySubscript "format" with
          | error e => simp [hf] at h
          | ok f =>
              simp only [hf] at h
              cases hfe : pvEq f (.str "date-time") with
              | false =>
                  simp only [hfe, Bool.false_eq_true, if_neg, not_false_iff,
                    Except.ok.injEq] at h
                  exact ⟨fields, h.symm, fun q hq => rfl⟩
              | true =>
                  simp only [hfe, if_pos] at h
                  have hcont : (PyVal.dict fields).pyContains p =
                      .ok (dget fields p).isSome := by
                    simp [PyVal.pyContains]
                  rw [hcont] at h
                  cases hdp : dget fields p with
                  | none =>
                      simp only [hdp, Option.isSome_none, Bool.false_eq_true,
                        if_neg, not_false_iff, Except.ok.injEq] at h
                      exact ⟨fields, h.symm, fun q hq => rfl⟩
                  | some w =>
                      simp only [hdp, Option.isSome_some, if_pos] at h
                      have hsub : (PyVal.dict fields).pySubscript p = .ok w := by
                        simp [PyVal.pySubscript, hdp]
                      rw [hsub] at h
                      cases hn : w.isNone with
                      | true =>
                          simp only [hn, if_pos, Except.ok.injEq] at h
                          exact ⟨fields, h.symm, fun q hq => rfl⟩
                      | false =>
                          simp only [hn, Bool.false_eq_true, if_neg,
                            not_false_iff] at h
                          cases w with
                          | str s =>
                              cases hts : rfc3339ToTimestamp s with
                              | none => simp [hts] at h
                              | some t =>
                                  simp only [hts, Except.ok.injEq] at h
                                  exact ⟨dset fields p (.dt (t + off)), h.symm,
                                    fun q hq => dget_dset_ne fields p q _ hq⟩
                          | none => simp [PyVal.isNone] at hn
                          | bool b => simp at h
                          | int n => simp at h
                          | dt t => simp at h
                          | list xs => simp at h
                          | dict fs => simp at h

theorem cprop_nonDict (off : Int) (p : String) (sub v v' : PyVal)
    (h : cprop off p sub v = .ok v') (hv : ∀ fs, v ≠ .dict fs) : v' = v := by
  unfold cprop at h
  cases hc : sub.pyContains "format" with
  | error e => simp [hc, Bind.bind, Except.bind] at h
  | ok hasFmt =>
      simp only [hc, Bind.bind, Except.bind] at h
      cases hasFmt with
      | false =>
          simp only [Bool.false_eq_true, if_neg, not_false_iff,
            Except.ok.injEq] at h
          exact h.symm
      | true =>
          simp only [if_pos] at h
          cases hf : sub.pySubscript "format" with
          | error e => simp [hf] at h
          | ok f =>
              simp only [hf] at h
              cases hfe : pvEq f (.str "date-time") with
              | false =>
                  simp only [hfe, Bool.false_eq_true, if_neg, not_false_iff,
                    Except.ok.injEq] at h
                  exact h.symm
              | true =>
                  simp only [hfe, if_pos] at h
                  cases v with
                  | dict fs => exact absurd rfl (hv fs)
                  | str s =>
                      simp only [PyVal.pyContains] at h
                      cases hm : decide (p.toList <:+: s.toList) with
                      | false =>
                          simp only [hm, Bool.false_eq_true, if_neg,
                            not_false_iff, Except.ok.injEq] at h
                          exact h.symm
                      | true =>
                          simp only [hm, if_pos, PyVal.pySubscript] at h
                          simp at h
                  | list xs =>
                      simp only [PyVal.pyContains] at h
                      cases hm : xs.any (fun w => pvEq w (.str p)) with
                      | false =>
                          simp only [hm, Bool.false_eq_true, if_neg,
                            not_false_iff, Except.ok.injEq] at h
                          exact h.symm
                      | true =>
                          simp only [hm, if_pos, PyVal.pySubscript] at h
                          simp at h
                  | none => simp [PyVal.pyContains] at h
                  | bool b => simp [PyVal.pyContains] at h
                  | int n => simp [PyVal.pyContains] at h
                  | dt t => simp [PyVal.pyContains] at h

theorem cprops_nonDict (off : Int) (props : List (String × PyVal)) :
    ∀ (v v' : PyVal), cprops off props v = .ok v' → (∀ fs, v ≠ .dict fs) →
    v' = v := by
  induction props with
  | nil =>
      intro v v' h hv
      simp only [cprops, Except.ok.injEq] at h
      exact h.symm
  | cons e rest ih =>
      intro v v' h hv
      obtain ⟨p, sub⟩ := e
      simp only [cprops, Bind.bind, Except.bind] at h
      cases hstep : cprop off p sub v with
      | error e2 => simp [hstep] at h
      | ok v1 =>
          simp only [hstep] at h
          have h1 := cprop_nonDict off p sub v v1 hstep hv
          rw [h1] at h
          exact ih v v' h hv

theorem cloop_preserve_notmem (off : Int) (props : List (String × PyVal)) :
    ∀ (fields : List (String × PyVal)) (out : PyVal) (p : String),
    cprops off props (.dict fields) = .ok out →
    p ∉ props.map Prod.fst →
    ∃ g, out = .dict g ∧ dget g p = dget fields p := by
  induction props with
  | nil =>
      intro fields out p h hp
      simp only [cprops, Except.ok.injEq] at h
      exact ⟨fields, h.symm, rfl⟩
  | cons e rest ih =>
      intro fields out p h hp
      obtain ⟨q, sub⟩ := e
      simp only [List.map_cons, List.mem_cons, not_or] at hp
      simp only [cprops, Bind.bind, Except.bind] at h
      cases hstep : cprop off q sub (.dict fields) with
      | error e2 => simp [hstep] at h
      | ok v1 =>
          simp only [hstep] at h
          obtain ⟨g1, hg1, hpre⟩ := cprop_preserve off q sub fields v1 hstep
          subst hg1
          obtain ⟨g, hout, hgp⟩ := ih g1 out p h hp.2
          exact ⟨g, hout, hgp.trans (hpre p hp.1)⟩

theorem cloop_key (off : Int) (props : List (String × PyVal)) :
    ∀ (fields : List (String × PyVal)) (out : PyVal) (p : String) (sub w : PyVal),
    cprops off props (.dict fields) = .ok out →
    (props.map Prod.fst).Nodup →
    dget props p = some sub → dget fields p = some w →
    ∃ w' g, cpropVal off sub w = .ok w' ∧ out = .dict g ∧ dget g p = some w' := by
  induction props with
  | nil => intro fields out p sub w h hnd hps; simp [dget] at hps
  | cons e rest ih =>
      intro fields out p sub w h hnd hps hw
      obtain ⟨q, subq⟩ := e
      simp only [List.map_cons, List.nodup_cons] at hnd
      simp only [cprops, Bind.bind, Except.bind] at h
      cases hstep : cprop off q subq (.dict fields) with
      | error e2 => simp [hstep] at h
      | ok v1 =>
          simp only [hstep] at h
          by_cases hqp : q = p
          · subst hqp
            have hsub2 : subq = sub := by simpa [dget] using hps
            subst hsub2
            obtain ⟨w', g1, hcv, hv1, hg1p, _⟩ :=
              cprop_key off q subq fields v1 w hstep hw
            subst hv1
            obtain ⟨g, hout, hgq⟩ := cloop_preserve_notmem off rest g1 out q h hnd.1
            exact ⟨w', g, hcv, hout, hgq.trans hg1p⟩
          · simp only [dget, if_neg hqp] at hps
            obtain ⟨g1, hv1, hpre⟩ := cprop_preserve off q subq fields v1 hstep
            subst hv1
            have hw1 : dget g1 p = some w := (hpre p (fun hh => hqp hh.symm)).trans hw
            exact ih g1 out p sub w h hnd.2 hps hw1

theorem descendWith_ok (rec : PyVal → PyVal → Except PyErr PyVal) (p : String)
    (sub v v' : PyVal) :
    descendWith rec p sub v = .ok v' ↔ rec sub v = .ok v' := by
  unfold descendWith
  cases h : rec sub v with
  | ok w => simp
  | error e => cases e <;> simp

theorem vloop_preserve_notmem (rec : PyVal → PyVal → Except PyErr PyVal)
    (props : List (String × PyVal)) :
    ∀ (fields g : List (String × PyVal)) (p : String),
    vpropsFieldsGo rec props fields = .ok g →
    p ∉ props.map Prod.fst → dget g p = dget fields p := by
  induction props with
  | nil =>
      intro fields g p h hp
      simp only [vpropsFieldsGo, Except.ok.injEq] at h
      rw [← h]
  | cons e rest ih =>
      intro fields g p h hp
      obtain ⟨q, subq⟩ := e
      simp only [List.map_cons, List.mem_cons, not_or] at hp
      simp only [vpropsFieldsGo] at h
      cases hq : dget fields q with
      | none =>
          simp only [hq] at h
          exact ih fields g p h hp.2
      | some v =>
          simp only [hq, Bind.bind, Except.bind] at h
          cases hd : descendWith rec q subq v with
          | error e2 => simp [hd] at h
          | ok v' =>
              simp only [hd] at h
              rw [ih (dset fields q v') g p h hp.2]
              exact dget_dset_ne fields q p v' hp.1

theorem vloop_key (rec : PyVal → PyVal → Except PyErr PyVal)
    (props : List (String × PyVal)) :
    ∀ (fields g : List (String × PyVal)) (p : String) (sub v : PyVal),
    vpropsFieldsGo rec props fields = .ok g →
    (props.map Prod.fst).Nodup →
    dget props p = some sub → dget fields p = some v →
    ∃ v', rec sub v = .ok v' ∧ dget g p = some v' := by
  induction props with
  | nil => intro fields g p sub v h hnd hps; simp [dget] at hps
  | cons e rest ih =>
      intro fields g p sub v h hnd hps hv
      obtain ⟨q, subq⟩ := e
      simp only [List.map_cons, List.nodup_cons] at hnd
      simp only [vpropsFieldsGo] at h
      by_cases hqp : q = p
      · subst hqp
        have hsub2 : subq = sub := by simpa [dget] using hps
        simp only [hv] at h
        simp only [Bind.bind, Except.bind] at h
        cases hd : descendWith rec q subq v with
        | error e2 => simp [hd] at h
        | ok v' =>
            simp only [hd] at h
            refine ⟨v', hsub2 ▸ (descendWith_ok rec q subq v v').mp hd, ?_⟩
            rw [vloop_preserve_notmem rec rest (dset fields q v') g q h hnd.1]
            exact dget_dset_self fields q v'
      · simp only [dget, if_neg hqp] at hps
        cases hq : dget fields q with
        | none =>
            simp only [hq] at h
            exact ih fields g p sub v h hnd.2 hps hv
        | some vq =>
            simp only [hq, Bind.bind, Except.bind] at h
            cases hd : descendWith rec q subq vq with
            | error e2 => simp [hd] at h
            | ok vq' =>
                simp only [hd] at h
                have hv' : dget (dset fields q vq') p = some v := by
                  rw [dget_dset_ne fields q p vq' (fun hh => hqp hh.symm)]
                  exact hv
                exact ih (dset fields q vq') g p sub v h hnd.2 hps hv'

theorem cprops_dict (off : Int) (props : List (String × PyVal)) :
    ∀ (fields : List (String × PyVal)) (out : PyVal),
    cprops off props (.dict fields) = .ok out →
    ∃ g, out = .dict g := by
  induction props with
  | nil =>
      intro fields out h
      simp only [cprops, Except.ok.injEq] at h
      exact ⟨fields, h.symm⟩
  | cons e rest ih =>
      intro fields out h
      obtain ⟨q, subq⟩ := e
      simp only [cprops, Bind.bind, Except.bind] at h
      cases hstep : cprop off q subq (.dict fields) with
      | error e2 => simp [hstep] at h
      | ok v1 =>
          simp only [hstep] at h
          obtain ⟨g1, hg1, _⟩ := cprop_preserve off q subq fields v1 hstep
          subst hg1
          exact ih g1 out h

theorem validateWD_succ_ok (fuel : Nat) (off : Int)
    (sfields : List (String × PyVal)) (inst out : PyVal)
    (h : validateWD (fuel + 1) off (.dict sfields) inst = .ok out) :
    (match dget sfields "type" with
     | some tv => checkTypeKeyword tv inst
     | Option.none => Except.ok ()) = .ok () ∧
    (match dget sfields "format" with
     | some fv => checkFormatKeyword fv inst
     | Option.none => Except.ok ()) = .ok () ∧
    ((dget sfields "properties" = Option.none ∧ out = inst) ∨
     (∃ props inst1, dget sfields "properties" = some (.dict props) ∧
        vpropsGo (fun sub v => validateWD fuel off sub v) props inst = .ok inst1 ∧
        cprops off props inst1 = .ok out)) := by
  simp only [validateWD, Bind.bind, Except.bind] at h
  cases h1 : (match dget sfields "type" with
              | some tv => checkTypeKeyword tv inst
              | Option.none => Except.ok ()) with
  | error e => rw [h1] at h; cases h
  | ok u1 =>
      cases u1
      rw [h1] at h
      cases h2 : (match dget sfields "format" with
                  | some fv => checkFormatKeyword fv inst
                  | Option.none => Except.ok ()) with
      | error e => rw [h2] at h; cases h
      | ok u2 =>
          cases u2
          rw [h2] at h
          dsimp only [] at h
          refine ⟨rfl, rfl, ?_⟩
          cases hp : dget sfields "properties" with
          | none =>
              rw [hp] at h
              simp only [Except.ok.injEq] at h
              exact Or.inl ⟨rfl, h.symm⟩
          | some pv =>
              rw [hp] at h
              cases pv with
              | dict props =>
                  cases hv : vpropsGo (fun sub v => validateWD fuel off sub v)
                      props inst with
                  | error e => simp [hv] at h
                  | ok inst1 =>
                      simp only [hv] at h
                      exact Or.inr ⟨props, inst1, rfl, hv, h⟩
              | none => cases h
              | bool b => cases h
              | int n => cases h
              | str s => cases h
              | dt t => cases h
              | list xs => cases h

theorem validateWD_nonDict (fuel : Nat) (off : Int) (schema v v' : PyVal)
    (h : validateWD fuel off schema v = .ok v') (hv : ∀ fs, v ≠ .dict fs) :
    v' = v := by
  cases fuel with
  | zero => simp [validateWD] at h
  | succ fuel =>
      cases schema with
      | dict sfields =>
          obtain ⟨_, _, hcase⟩ := validateWD_succ_ok fuel off sfields v v' h
          rcases hcase with ⟨_, hout⟩ | ⟨props, inst1, hp, hvp, hcp⟩
          · exact hout
          · have hin : inst1 = v := by
              cases v with
              | dict fs => exact absurd rfl (hv fs)
              | none => simp only [vpropsGo, Except.ok.injEq] at hvp; exact hvp.symm
              | bool b => simp only [vpropsGo, Except.ok.injEq] at hvp; exact hvp.symm
              | int n => simp only [vpropsGo, Except.ok.injEq] at hvp; exact hvp.symm
              | str s => simp only [vpropsGo, Except.ok.injEq] at hvp; exact hvp.symm
              | dt t => simp only [vpropsGo, Except.ok.injEq] at hvp; exact hvp.symm
              | list xs => simp only [vpropsGo, Except.ok.injEq] at hvp; exact hvp.symm
            subst hin
            exact cprops_nonDict off props inst1 v' hcp hv
      | none => simp [validateWD] at h
      | bool b => simp [validateWD] at h
      | int n => simp [validateWD] at h
      | str s => simp [validateWD] at h
      | dt t => simp [validateWD] at h
      | list xs => simp [validateWD] at h

theorem vpropsGo_dict (rec : PyVal → PyVal → Except PyErr PyVal)
    (props fields : List (String × PyVal)) (inst1 : PyVal)
    (h : vpropsGo rec props (.dict fields) = .ok inst1) :
    ∃ f1, vpropsFieldsGo rec props fields = .ok f1 ∧ inst1 = .dict f1 := by
  simp only [vpropsGo, Bind.bind, Except.bind] at h
  cases hf : vpropsFieldsGo rec props fields with
  | error e => simp [hf] at h
  | ok f1 =>
      simp only [hf, Except.ok.injEq] at h
      exact ⟨f1, rfl, h.symm⟩

/-- Per-key effect of one level of the extended validator on object
instances: the declared property's value is first validated/coerced
recursively, then put through the `set_defaults` date-time coercion. -/
theorem validateWD_key (fuel : Nat) (off : Int)
    (sfields props fields : List (String × PyVal)) (out : PyVal) (p : String)
    (sub v : PyVal)
    (h : validateWD (fuel + 1) off (.dict sfields) (.dict fields) = .ok out)
    (hp : dget sfields "properties" = some (.dict props))
    (hnd : (props.map Prod.fst).Nodup)
    (hps : dget props p = some sub) (hv : dget fields p = some v) :
    ∃ v' w' g, validateWD fuel off sub v = .ok v' ∧
      cpropVal off sub v' = .ok w' ∧ out = .dict g ∧ dget g p = some w' := by
  obtain ⟨_, _, hcase⟩ :=
    validateWD_succ_ok fuel off sfields (.dict fields) out h
  rcases hcase with ⟨hnone, _⟩ | ⟨props2, inst1, hp2, hvp, hcp⟩
  · rw [hp] at hnone; cases hnone
  · rw [hp] at hp2
    have hpe : props = props2 := by
      simp only [Option.some.injEq, PyVal.dict.injEq] at hp2
      exact hp2
    subst hpe
    obtain ⟨f1, hfgo, hinst1⟩ := vpropsGo_dict _ props fields inst1 hvp
    subst hinst1
    obtain ⟨v', hrec, hf1p⟩ :=
      vloop_key (fun sub v => validateWD fuel off sub v) props fields f1 p sub v
        hfgo hnd hps hv
    obtain ⟨w', g, hcv, hout, hgp⟩ :=
      cloop_key off props f1 out p sub v' hcp hnd hps hf1p
    exact ⟨v', w', g, hrec, hcv, hout, hgp⟩

/-- Subschema reached by descending through the `properties` keyword along a
path of property names. -/
def schemaAtPath : PyVal → List String → Option PyVal
  | sch, [] => some sch
  | sch, q :: rest =>
      match sch with
      | .dict sfields =>
          match dget sfields "properties" with
          | some (.dict props) =>
              match dget props q with
              | some sub => schemaAtPath sub rest
              | Option.none => Option.none
          | _ => Option.none
      | _ => Option.none

/-- Value reached by descending through object fields along a path. -/
def instAtPath : PyVal → List String → Option PyVal
  | v, [] => some v
  | v, q :: rest =>
      match v with
      | .dict fields =>
          match dget fields q with
          | some w => instAtPath w rest
          | Option.none => Option.none
      | _ => Option.none

theorem schemaAtPath_cons (sch : PyVal) (q : String) (rest : List String)
    (r : PyVal) (h : schemaAtPath sch (q :: rest) = some r) :
    ∃ sfields props sub, sch = .dict sfields ∧
      dget sfields "properties" = some (.dict props) ∧
      dget props q = some sub ∧ schemaAtPath sub rest = some r := by
  cases sch with
  | dict sfields =>
      simp only [schemaAtPath] at h
      cases hp : dget sfields "properties" with
      | none => simp only [hp] at h; cases h
      | some pv =>
          simp only [hp] at h
          cases pv with
          | dict props =>
              cases hq : dget props q with
              | none => simp only [hq] at h; cases h
              | some sub =>
                  simp only [hq] at h
                  exact ⟨sfields, props, sub, rfl, hp, hq, h⟩
          | none => cases h
          | bool b => cases h
          | int n => cases h
          | str s => cases h
          | dt t => cases h
          | list xs => cases h
  | none => cases h
  | bool b => cases h
  | int n => cases h
  | str s => cases h
  | dt t => cases h
  | list xs => cases h

theorem instAtPath_cons (v : PyVal) (q : String) (rest : List String)
    (r : PyVal) (h : instAtPath v (q :: rest) = some r) :
    ∃ fields w, v = .dict fields ∧ dget fields q = some w ∧
      instAtPath w rest = some r := by
  cases v with
  | dict fields =>
      simp only [instAtPath] at h
      cases hq : dget fields q with
      | none => simp only [hq] at h; cases h
      | some w =>
          simp only [hq] at h
          exact ⟨fields, w, rfl, hq, h⟩
  | none => cases h
  | bool b => cases h
  | int n => cases h
  | str s => cases h
  | dt t => cases h
  | list xs => cases h

/-- C9: the date-time coercion applies at every nesting depth of the record,
not only to top-level properties: for any subschema reached through the
`properties` keyword along a path of property names that declares
`format: "date-time"`, a present non-null (string) value at that path in a
successfully transformed record is replaced by the coerced instant. -/
theorem C9_nested_coercion (path : List String) :
    ∀ (fuel : Nat) (off : Int) (schema inst out : PyVal) (p : String)
      (sfs : List (String × PyVal)) (s : String) (t : Int),
    nodupKeys schema = true →
    validateWD fuel off schema inst = .ok out →
    schemaAtPath schema (path ++ [p]) = some (.dict sfs) →
    dget sfs "format" = some (.str "date-time") →
    instAtPath inst (path ++ [p]) = some (.str s) →
    rfc3339ToTimestamp s = some t →
    instAtPath out (path ++ [p]) = some (.dt (t + off)) := by
  induction path with
  | nil =>
      intro fuel off schema inst out p sfs s t hnk h hsp hfmt hip hts
      obtain ⟨sfields, props, sub, hsch, hp, hps, hsub⟩ :=
        schemaAtPath_cons schema p [] _ (by simpa using hsp)
      subst hsch
      simp only [schemaAtPath, Option.some.injEq] at hsub
      subst hsub
      obtain ⟨fields, w, hinst, hfw, hwr⟩ :=
        instAtPath_cons inst p [] _ (by simpa using hip)
      subst hinst
      simp only [instAtPath, Option.some.injEq] at hwr
      subst hwr
      cases fuel with
      | zero => simp [validateWD] at h
      | succ fuel =>
          have hndp : (props.map Prod.fst).Nodup := by
            have h1 := nodupKeys_dget sfields "properties" _ hnk hp
            exact (nodupKeys_dict props h1).1
          obtain ⟨v', w', g, hrec, hcv, hout, hgp⟩ :=
            validateWD_key fuel off sfields props fields out p _ _ h hp hndp
              hps hfw
          have hv' : v' = .str s :=
            validateWD_nonDict fuel off _ _ v' hrec (by intro fs hh; cases hh)
          subst hv'
          have hpv : pvEq (.str "date-time") (.str "date-time") = true := rfl
          have hcomp : cpropVal off (.dict sfs) (.str s) = .ok (.dt (t + off)) := by
            unfold cpropVal
            simp [PyVal.pyContains, PyVal.pySubscript, hfmt, hpv, PyVal.isNone,
              hts, Bind.bind, Except.bind]
          rw [hcomp] at hcv
          injection hcv with hw'
          subst hout
          simp [instAtPath, hgp, ← hw']
  | cons q rest ih =>
      intro fuel off schema inst out p sfs s t hnk h hsp hfmt hip hts
      obtain ⟨sfields, props, subq, hsch, hp, hpq, hsub⟩ :=
        schemaAtPath_cons schema q (rest ++ [p]) _ (by simpa using hsp)
      subst hsch
      obtain ⟨fields, wq, hinst, hfq, hwr⟩ :=
        instAtPath_cons inst q (rest ++ [p]) _ (by simpa using hip)
      subst hinst
      cases fuel with
      | zero => simp [validateWD] at h
      | succ fuel =>
          have h1 := nodupKeys_dget sfields "properties" _ hnk hp
          have hndp : (props.map Prod.fst).Nodup := (nodupKeys_dict props h1).1
          obtain ⟨v', w', g, hrec, hcv, hout, hgq⟩ :=
            validateWD_key fuel off sfields props fields out q _ _ h hp hndp
              hpq hfq
          have hnksub : nodupKeys subq = true := nodupKeys_dget props q subq h1 hpq
          have hihres := ih fuel off subq wq v' p sfs s t hnksub hrec hsub hfmt
            hwr hts
          have hne : ∃ x xs, rest ++ [p] = x :: xs := by
            cases hrp : rest ++ [p] with
            | nil => exact absurd hrp (by simp)
            | cons x xs => exact ⟨x, xs, rfl⟩
          obtain ⟨x, xs, hrp⟩ := hne
          rw [hrp] at hihres
          obtain ⟨g', w2, hv'd, _, _⟩ := instAtPath_cons v' x xs _ hihres
          have hw' : w' = v' := by
            subst hv'd
            exact cpropVal_dict off subq g' w' hcv
          subst hw'
          subst hout
          show instAtPath (.dict g) (q :: (rest ++ [p])) = _
          rw [hrp]
          simp only [instAtPath, hgq]
          exact hihres

/-- C9 witness: a nested schema `{a: {properties: {b: format date-time}}}`
coerces the doubly-nested property `a.b`. -/
theorem C9_nested_coercion_witness :
    instAtPath
      (PyVal.dict [("a", .dict [("b", .dt (946684800 + 0))])])
      (["a"] ++ ["b"]) = some (.dt (946684800 + 0)) :=
  C9_nested_coercion ["a"] 10 0
    (.dict [("properties", .dict [("a", .dict [("properties",
      .dict [("b", .dict [("format", .str "date-time")])])])])])
    (.dict [("a", .dict [("b", .str "2000-01-01T00:00:00Z")])])
    (.dict [("a", .dict [("b", .dt (946684800 + 0))])])
    "b" [("format", .str "date-time")] "2000-01-01T00:00:00Z" 946684800
    rfl rfl rfl rfl rfl rfl

/-- Field loop of the validation-only pass: each declared property present
in the (original) instance is validated recursively; nothing is written. -/
def pvalFieldsGo (rec : PyVal → PyVal → Except PyErr Unit) :
    List (String × PyVal) → List (String × PyVal) → Except PyErr Unit
  | [], _ => .ok ()
  | (p, sub) :: rest, fields =>
      match dget fields p with
      | Option.none => pvalFieldsGo rec rest fields
      | some v => do
          let _ ← rec sub v
          pvalFieldsGo rec rest fields

/-- Validation-only pass of the extended validator: the `type` and `format`
keyword checks plus the recursive walk through `properties`, evaluated
entirely on the original (wire) instance values, with no coercion. -/
def pureValidate : Nat → PyVal → PyVal → Except PyErr Unit
  | 0, _, _ => .error (.typeErr "RecursionError")
  | Nat.succ fuel, schema, inst =>
      match schema with
      | .dict sfields => do
          let _ ← (match dget sfields "type" with
                   | some tv => checkTypeKeyword tv inst
                   | Option.none => .ok ())
          let _ ← (match dget sfields "format" with
                   | some fv => checkFormatKeyword fv inst
                   | Option.none => .ok ())
          match dget sfields "properties" with
          | some (.dict props) =>
              match inst with
              | .dict fields =>
                  pvalFieldsGo (fun sub v => pureValidate fuel sub v) props fields
              | _ => .ok ()
          | some _ => .error (.typeErr "properties value must be a dict")
          | Option.none => .ok ()
      | _ => .error (.typeErr "schema must be a dict")

/-- Coercion-only pass of the extended validator: the recursive walk plus
the `set_defaults` date-time overwrites, with no validation checks.  Its
second loop (`cprops`) rewrites exactly the properties whose subschema
carries `format: "date-time"` and leaves every other property unchanged. -/
def pureCoerce : Nat → Int → PyVal → PyVal → Except PyErr PyVal
  | 0, _, _, _ => .error (.typeErr "RecursionError")
  | Nat.succ fuel, off, schema, inst =>
      match schema with
      | .dict sfields =>
          match dget sfields "properties" with
          | some (.dict props) => do
              let inst1 ← vpropsGo (fun sub v => pureCoerce fuel off sub v) props inst
              cprops off props inst1
          | some _ => .error (.typeErr "properties value must be a dict")
          | Option.none => .ok inst
      | _ => .error (.typeErr "schema must be a dict")

theorem pvalFieldsGo_congr (rec : PyVal → PyVal → Except PyErr Unit)
    (props : List (String × PyVal)) :
    ∀ (f1 f2 : List (String × PyVal)),
    (∀ pr ∈ props, dget f1 pr.1 = dget f2 pr.1) →
    pvalFieldsGo rec props f1 = pvalFieldsGo rec props f2 := by
  induction props with
  | nil => intro f1 f2 _; rfl
  | cons e rest ih =>
      intro f1 f2 hag
      obtain ⟨p, sub⟩ := e
      have hp := hag (p, sub) (by simp)
      have hrest : ∀ pr ∈ rest, dget f1 pr.1 = dget f2 pr.1 :=
        fun pr hpr => hag pr (by simp [hpr])
      simp only [pvalFieldsGo, hp]
      cases dget f2 p with
      | none => exact ih f1 f2 hrest
      | some v =>
          simp only [Bind.bind, Except.bind]
          cases rec sub v with
          | error e2 => rfl
          | ok u => exact ih f1 f2 hrest

theorem loops_decompose (fuel : Nat) (off : Int)
    (hIH : ∀ (sub v out : PyVal), nodupKeys sub = true →
       validateWD fuel off sub v = .ok out →
       pureValidate fuel sub v = .ok () ∧ pureCoerce fuel off sub v = .ok out)
    (props : List (String × PyVal)) :
    ∀ (fields f1 : List (String × PyVal)),
    (props.map Prod.fst).Nodup → nodupKeysFields props = true →
    vpropsFieldsGo (fun sub v => validateWD fuel off sub v) props fields = .ok f1 →
    pvalFieldsGo (fun sub v => pureValidate fuel sub v) props fields = .ok () ∧
    vpropsFieldsGo (fun sub v => pureCoerce fuel off sub v) props fields = .ok f1 := by
  induction props with
  | nil =>
      intro fields f1 _ _ h
      simp only [vpropsFieldsGo, Except.ok.injEq] at h
      subst h
      exact ⟨rfl, rfl⟩
  | cons e rest ih =>
      intro fields f1 hnd hnkf h
      obtain ⟨p, sub⟩ := e
      simp only [List.map_cons, List.nodup_cons] at hnd
      simp only [nodupKeysFields, Bool.and_eq_true] at hnkf
      simp only [vpropsFieldsGo] at h
      cases hv : dget fields p with
      | none =>
          simp only [hv] at h
          obtain ⟨hA, hB⟩ := ih fields f1 hnd.2 hnkf.2 h
          constructor
          · simp only [pvalFieldsGo, hv]
            exact hA
          · simp only [vpropsFieldsGo, hv]
            exact hB
      | some v =>
          simp only [hv, Bind.bind, Except.bind] at h
          cases hd : descendWith (fun sub v => validateWD fuel off sub v) p sub v with
          | error e2 => simp [hd] at h
          | ok v' =>
              simp only [hd] at h
              have hrec : validateWD fuel off sub v = .ok v' :=
                (descendWith_ok _ p sub v v').mp hd
              obtain ⟨hpv, hpc⟩ := hIH sub v v' hnkf.1 hrec
              obtain ⟨hA, hB⟩ := ih (dset fields p v') f1 hnd.2 hnkf.2 h
              constructor
              · simp only [pvalFieldsGo, hv, Bind.bind, Except.bind, hpv]
                rw [pvalFieldsGo_congr _ rest fields (dset fields p v') ?_]
                · exact hA
                · intro pr hpr
                  have hne : pr.1 ≠ p := by
                    intro hh
                    exact hnd.1 (hh ▸ List.mem_map_of_mem Prod.fst hpr)
                  exact (dget_dset_ne fields p pr.1 v' hne).symm
              · simp only [vpropsFieldsGo, hv, Bind.bind, Except.bind]
                have hd2 : descendWith (fun sub v => pureCoerce fuel off sub v)
                    p sub v = .ok v' :=
                  (descendWith_ok _ p sub v v').mpr hpc
                simp only [hd2]
                exact hB

/-- C6: a successful transform decomposes into validation-then-coercion:
every keyword check (including format assertions) of the run is reproduced
by `pureValidate`, which sees only the original wire instance (date-time
values still strings), and the output is exactly `pureCoerce` of the
original instance — a pass that performs no checks and rewrites only the
properties flagged `format: "date-time"`; a property whose subschema has no
`format` key is never rewritten by the coercion step. -/
theorem C6_validation_on_wire_then_coerce :
    (∀ (fuel : Nat) (off : Int) (schema inst out : PyVal),
      nodupKeys schema = true →
      validateWD fuel off schema inst = .ok out →
      pureValidate fuel schema inst = .ok () ∧
      pureCoerce fuel off schema inst = .ok out) ∧
    (∀ (off : Int) (sfs : List (String × PyVal)) (w : PyVal),
      dget sfs "format" = Option.none → cpropVal off (.dict sfs) w = .ok w) := by
  constructor
  · intro fuel
    induction fuel with
    | zero => intro off schema inst out _ h; simp [validateWD] at h
    | succ fuel ih =>
        intro off schema inst out hnk h
        cases schema with
        | dict sfields =>
            obtain ⟨hty, hfm, hcase⟩ := validateWD_succ_ok fuel off sfields inst out h
            rcases hcase with ⟨hp, hout⟩ | ⟨props, inst1, hp, hvp, hcp⟩
            · subst hout
              constructor
              · simp only [pureValidate, Bind.bind, Except.bind, hty, hfm, hp]
              · simp only [pureCoerce, hp]
            · have h1 := nodupKeys_dget sfields "properties" _ hnk hp
              have hndp : (props.map Prod.fst).Nodup := (nodupKeys_dict props h1).1
              have hnkf : nodupKeysFields props = true := (nodupKeys_dict props h1).2
              cases inst with
              | dict fields =>
                  obtain ⟨f1, hfgo, hinst1⟩ := vpropsGo_dict _ props fields inst1 hvp
                  subst hinst1
                  obtain ⟨hA, hB⟩ := loops_decompose fuel off
                    (fun sub v out => ih off sub v out) props fields f1
                    hndp hnkf hfgo
                  constructor
                  · simp only [pureValidate, Bind.bind, Except.bind, hty, hfm, hp]
                    exact hA
                  · simp only [pureCoerce, hp, Bind.bind, Except.bind, vpropsGo, hB]
                    exact hcp
              | none =>
                  have hinst1 : inst1 = .none := by
                    simp only [vpropsGo, Except.ok.injEq] at hvp; exact hvp.symm
                  subst hinst1
                  refine ⟨?_, ?_⟩
                  · simp only [pureValidate, Bind.bind, Except.bind, hty, hfm, hp]
                  · simp only [pureCoerce, hp, Bind.bind, Except.bind, vpropsGo]
                    exact hcp
              | bool b =>
                  have hinst1 : inst1 = .bool b := by
                    simp only [vpropsGo, Except.ok.injEq] at hvp; exact hvp.symm
                  subst hinst1
                  refine ⟨?_, ?_⟩
                  · simp only [pureValidate, Bind.bind, Except.bind, hty, hfm, hp]
                  · simp only [pureCoerce, hp, Bind.bind, Except.bind, vpropsGo]
                    exact hcp
              | int n =>
                  have hinst1 : inst1 = .int n := by
                    simp only [vpropsGo, Except.ok.injEq] at hvp; exact hvp.symm
                  subst hinst1
                  refine ⟨?_, ?_⟩
                  · simp only [pureValidate, Bind.bind, Except.bind, hty, hfm, hp]
                  · simp only [pureCoerce, hp, Bind.bind, Except.bind, vpropsGo]
                    exact hcp
              | str s =>
                  have hinst1 : inst1 = .str s := by
                    simp only [vpropsGo, Except.ok.injEq] at hvp; exact hvp.symm
                  subst hinst1
                  refine ⟨?_, ?_⟩
                  · simp only [pureValidate, Bind.bind, Except.bind, hty, hfm, hp]
                  · simp only [pureCoerce, hp, Bind.bind, Except.bind, vpropsGo]
                    exact hcp
              | dt t =>
                  have hinst1 : inst1 = .dt t := by
                    simp only [vpropsGo, Except.ok.injEq] at hvp; exact hvp.symm
                  subst hinst1
                  refine ⟨?_, ?_⟩
                  · simp only [pureValidate, Bind.bind, Except.bind, hty, hfm, hp]
                  · simp only [pureCoerce, hp, Bind.bind, Except.bind, vpropsGo]
                    exact hcp
              | list xs =>
                  have hinst1 : inst1 = .list xs := by
                    simp only [vpropsGo, Except.ok.injEq] at hvp; exact hvp.symm
                  subst hinst1
                  refine ⟨?_, ?_⟩
                  · simp only [pureValidate, Bind.bind, Except.bind, hty, hfm, hp]
                  · simp only [pureCoerce, hp, Bind.bind, Except.bind, vpropsGo]
                    exact hcp
        | none => simp [validateWD] at h
        | bool b => simp [validateWD] at h
        | int n => simp [validateWD] at h
        | str s => simp [validateWD] at h
        | dt t => simp [validateWD] at h
        | list xs => simp [validateWD] at h
  · intro off sfs w hfm
    unfold cpropVal
    simp [PyVal.pyContains, hfm, Bind.bind, Except.bind]

/-- C6 witness: a concrete schema with one flagged and one unflagged
property, transformed with local offset +3600. -/
theorem C6_validation_on_wire_then_coerce_witness :
    pureValidate 10
      (.dict [("properties", .dict [("when", .dict [("format", .str "date-time")]),
        ("id", .dict [("type", .str "integer")])])])
      (.dict [("id", .int 1), ("when", .str "2000-01-01T00:00:00Z")]) = .ok () ∧
    pureCoerce 10 3600
      (.dict [("properties", .dict [("when", .dict [("format", .str "date-time")]),
        ("id", .dict [("type", .str "integer")])])])
      (.dict [("id", .int 1), ("when", .str "2000-01-01T00:00:00Z")]) =
      .ok (.dict [("id", .int 1), ("when", .dt 946688400)]) :=
  C6_validation_on_wire_then_coerce.1 10 3600
    (.dict [("properties", .dict [("when", .dict [("format", .str "date-time")]),
      ("id", .dict [("type", .str "integer")])])])
    (.dict [("id", .int 1), ("when", .str "2000-01-01T00:00:00Z")])
    (.dict [("id", .int 1), ("when", .dt 946688400)]) rfl rfl

/-- C7: error propagation of the transform.  (a) Any failure inside
`parse_record`'s `try` body is re-raised as the fatal
`Exception('Error parsing record {full_record}')` whose message carries the
whole message object (hence the offending stream and record) and whose
context chains the underlying cause.  (b) A malformed date-time string
fails the `format` assertion with a `ValidationError` naming the raw value,
and (c) bubbling out of `descend` prepends the offending property to the
error's instance path.  (d) A present, non-null value that reaches the
`set_defaults` coercion and fails it (malformed string, or not a string at
all) raises `Exception('Error parsing property {p}, value {v}')`, naming
the property and the raw value, with the cause chained. -/
theorem C7_fatal_errors_carry_context :
    (∀ (fuel : Nat) (off : Int) (full : PyVal)
        (schemas : List (PyVal × PyVal)) (e : PyErr),
      parseRecordInner fuel off full schemas = .error e →
      parse_record fuel off full schemas =
        .error (.generic ("Error parsing record " ++ pyStr full) (some e))) ∧
    (∀ s : String, rfc3339ToTimestamp s = Option.none →
      checkFormatKeyword (.str "date-time") (.str s) =
        .error (.validation [] (pyStrRepr s ++ " is not a 'date-time'"))) ∧
    (∀ (rec : PyVal → PyVal → Except PyErr PyVal) (p : String)
        (sub v : PyVal) (path : List String) (m : String),
      rec sub v = .error (.validation path m) →
      descendWith rec p sub v = .error (.validation (p :: path) m)) ∧
    (∀ (off : Int) (p : String) (sfs fields : List (String × PyVal)) (v : PyVal),
      dget sfs "format" = some (.str "date-time") → dget fields p = some v →
      v.isNone = false →
      ((∃ s, v = .str s ∧ rfc3339ToTimestamp s = Option.none) ∨
        (∀ s, v ≠ .str s)) →
      ∃ cause, cprop off p (.dict sfs) (.dict fields) =
        .error (.generic ("Error parsing property " ++ p ++ ", value " ++ pyStr v)
          (some cause))) := by
  refine ⟨?_, ?_, ?_, ?_⟩
  · intro fuel off full schemas e h
    unfold parse_record
    rw [h]
  · intro s hs
    simp [checkFormatKeyword, hs, pvEq, PyVal.pvEq]
  · intro rec p sub v path m h
    unfold descendWith
    rw [h]
  · intro off p sfs fields v hfmt hv hnn hbad
    unfold cprop
    have hpv : pvEq (.str "date-time") (.str "date-time") = true := rfl
    simp only [PyVal.pyContains, PyVal.pySubscript, hfmt, Option.isSome_some,
      Bind.bind, Except.bind, if_pos, hpv, hv, hnn, Bool.false_eq_true, if_neg,
      not_false_iff]
    rcases hbad with ⟨s, hvs, hrf⟩ | hns
    · subst hvs
      simp only [hrf]
      exact ⟨.typeErr "InvalidRFC3339Error", rfl⟩
    · cases v with
      | str s => exact absurd rfl (hns s)
      | none => simp [PyVal.isNone] at hnn
      | bool b => exact ⟨.typeErr "rfc3339_to_timestamp expects a string", rfl⟩
      | int n => exact ⟨.typeErr "rfc3339_to_timestamp expects a string", rfl⟩
      | dt t => exact ⟨.typeErr "rfc3339_to_timestamp expects a string", rfl⟩
      | list xs => exact ⟨.typeErr "rfc3339_to_timestamp expects a string", rfl⟩
      | dict fs => exact ⟨.typeErr "rfc3339_to_timestamp expects a string", rfl⟩

/-- C7 witness: the record `{'when': 5}` with a date-time-flagged schema
fails with the named property error chained inside the record-level error. -/
theorem C7_fatal_errors_carry_context_witness :
    parse_record 10 0
      (.dict [("type", .str "RECORD"), ("stream", .str "users"),
        ("record", .dict [("when", .int 5)])])
      [(.str "users", .dict [("properties",
        .dict [("when", .dict [("format", .str "date-time")])])])] =
      .error (.generic ("Error parsing record " ++
        pyStr (.dict [("type", .str "RECORD"), ("stream", .str "users"),
          ("record", .dict [("when", .int 5)])]))
        (some (.generic "Error parsing property when, value 5"
          (some (.typeErr "rfc3339_to_timestamp expects a string"))))) :=
  C7_fatal_errors_carry_context.1 10 0
    (.dict [("type", .str "RECORD"), ("stream", .str "users"),
      ("record", .dict [("when", .int 5)])])
    [(.str "users", .dict [("properties",
      .dict [("when", .dict [("format", .str "date-time")])])])]
    (.generic "Error parsing property when, value 5"
      (some (.typeErr "rfc3339_to_timestamp expects a string"))) rfl

/-- RFC 3339 rendering of an absolute instant (reference formatting for the
round-trip property). -/
def rfc3339Format (t : Int) : String :=
  let days := Int.ediv t 86400
  let secs := Int.emod t 86400
  let c := civilFromDays days
  padNum 4 c.1 ++ "-" ++ padNum 2 c.2.1 ++ "-" ++ padNum 2 c.2.2 ++ "T" ++
    padNum 2 (Int.ediv secs 3600) ++ ":" ++
    padNum 2 (Int.emod (Int.ediv secs 60) 60) ++ ":" ++
    padNum 2 (Int.emod secs 60) ++ "Z"

/-- C2: the coercion composes `datetime.fromtimestamp` (which converts the
POSIX timestamp to the *local* wall clock) with `.replace(tzinfo=tzutc())`,
which merely stamps that wall clock as UTC.  With the process in UTC
(offset 0) the stored value is the instant denoted by the RFC 3339 input;
with any other local offset (here +01:00 = 3600 s) the stored instant is
shifted by the offset and is NOT the absolute UTC instant of the input —
refuting the claim for non-UTC environments — although formatting the
stored instant back to RFC 3339 and reparsing does reproduce the stored
(wrong) instant. -/
theorem C2_datetime_coercion_local_offset :
    rfc3339ToTimestamp "2000-01-01T00:00:00Z" = some 946684800 ∧
    validateWD 10 0
      (.dict [("properties", .dict [("when", .dict [("format", .str "date-time")])])])
      (.dict [("when", .str "2000-01-01T00:00:00Z")]) =
      .ok (.dict [("when", .dt 946684800)]) ∧
    validateWD 10 3600
      (.dict [("properties", .dict [("when", .dict [("format", .str "date-time")])])])
      (.dict [("when", .str "2000-01-01T00:00:00Z")]) =
      .ok (.dict [("when", .dt 946688400)]) ∧
    (946688400 : Int) ≠ 946684800 ∧
    rfc3339Format 946688400 = "2000-01-01T01:00:00Z" ∧
    rfc3339ToTimestamp (rfc3339Format 946688400) = some 946688400 :=
  ⟨rfl, rfl, rfl, by decide, rfl, rfl⟩

theorem jpMembers_quote (fuel : Nat) (rest : List Char)
    (acc : List (String × PyVal)) :
    jpMembers fuel ('\'' :: rest) acc = Option.none := by
  cases fuel with
  | zero => rfl
  | succ fuel => rfl

/-- Failure of the JSON grammar on any text beginning `{'`. -/
theorem jpValue_brace_quote (fuel : Nat) (rest : List Char) :
    jpValue (fuel + 2) ('\x7b' :: '\'' :: rest) = Option.none := by
  have h : jpValue (fuel + 2) ('\x7b' :: '\'' :: rest) =
      jpMembers fuel ('\'' :: rest) [] := rfl
  rw [h, jpMembers_quote]

/-- Final state of the C10 witness run (one STATE `{'offset': 1}`). -/
def c10wStF : RunState :=
  { pending := .dict [("offset", .int 1)], schemas := [], buf := [],
    pushes := [], batches := [[]],
    out := ["\x7b'offset': 1\x7d\n"] }

/-- C10 counterexample: the empty-object checkpoint `{}`.  Its emitted line
is `str({})` = `"{}"` followed by a newline — and `"{}"` IS valid JSON text
and IS the JSON serialization of the value, so the claim's "for
object-valued checkpoints the emitted line is not valid JSON text" fails at
this input. -/
theorem C10_emitted_line_counterexample :
    do_sync 10 0 (fun _ => 0)
        [PyVal.dict [("type", .str "STATE"), ("value", .dict [])]] =
      .ok { pending := .dict [], schemas := [], buf := [], pushes := [],
            batches := [[]], out := ["\x7b\x7d\n"] } ∧
    pyStr (.dict []) = "\x7b\x7d" ∧
    jsonParse "\x7b\x7d" = some (.dict []) ∧
    jsonSerialize (.dict []) = "\x7b\x7d" :=
  ⟨rfl, rfl, rfl, rfl⟩

/-- C10 (amended): every line the pipeline writes is the Python `str()` of
the emitted checkpoint value followed by one newline (never a JSON
serialization step); and for an object-valued checkpoint with at least one
property whose first key contains no single-quote character, that `str()`
text is not valid JSON (it begins `{'`). -/
theorem C10_emitted_lines_are_str :
    (∀ (fuel : Nat) (off : Int) (seqOf : Nat → Int) (objs : List PyVal)
        (stF : RunState),
      do_sync fuel off seqOf objs = .ok stF →
      stF.out = ((stF.pushes.map Prod.snd).filter
          (fun s => !s.isNone)).map (fun v => pyStr v ++ "\n") ++
        (if stF.pending.isNone then [] else [pyStr stF.pending ++ "\n"])) ∧
    (∀ (k : String) (v : PyVal) (fs : List (String × PyVal)),
      k.toList.contains '\'' = false →
      jsonParse (pyStr (.dict ((k, v) :: fs))) = Option.none) := by
  constructor
  · intro fuel off seqOf objs stF hrun
    have hm := do_sync_master fuel off seqOf objs stF hrun
    rw [hm.2.2.2.2]
    rw [← hm.2.1]
    rfl
  · intro k v fs hk
    have hq : reprQuote k = '\'' := by
      unfold reprQuote
      rw [hk]
      simp
    have h3 : (pyStrRepr k).data = '\'' :: (k.toList.flatMap (escChar '\'') ++ ['\'']) := by
      simp [pyStrRepr, hq]
    have h2 : ∃ tail : String, pyReprD ((k, v) :: fs) = pyStrRepr k ++ tail := by
      cases fs with
      | nil =>
          refine ⟨": " ++ pyRepr v, ?_⟩
          show pyStrRepr k ++ ": " ++ pyRepr v = _
          simp [String.append_assoc]
      | cons e fs' =>
          refine ⟨": " ++ pyRepr v ++ ", " ++ pyReprD (e :: fs'), ?_⟩
          show pyStrRepr k ++ ": " ++ pyRepr v ++ ", " ++ pyReprD (e :: fs') = _
          simp [String.append_assoc]
    obtain ⟨tail, h2⟩ := h2
    have hdata : (pyStr (.dict ((k, v) :: fs))).data =
        '\x7b' :: '\'' :: ((k.toList.flatMap (escChar '\'') ++ ['\'']) ++
          tail.data ++ ('\x7d' : Char) :: []) := by
      show ("\x7b" ++ pyReprD ((k, v) :: fs) ++ "\x7d").data = _
      rw [h2]
      simp only [String.data_append, h3]
      rfl
    unfold jsonParse
    have hm4 : 4 * ((pyStr (.dict ((k, v) :: fs))).length + 1) =
        (4 * (pyStr (.dict ((k, v) :: fs))).length + 2) + 2 := by omega
    rw [hm4]
    have htl : (pyStr (.dict ((k, v) :: fs))).toList =
        (pyStr (.dict ((k, v) :: fs))).data := rfl
    rw [htl, hdata, jpValue_brace_quote]

/-- C10 witness: a run emitting the checkpoint `{'offset': 1}`; its output
line is `str()` of the value plus newline, and that text is not valid JSON. -/
theorem C10_emitted_lines_are_str_witness :
    c10wStF.out = ((c10wStF.pushes.map Prod.snd).filter
        (fun s => !s.isNone)).map (fun v => pyStr v ++ "\n") ++
      (if c10wStF.pending.isNone then [] else [pyStr c10wStF.pending ++ "\n"]) ∧
    jsonParse (pyStr (.dict (("offset", PyVal.int 1) :: []))) = Option.none :=
  ⟨C10_emitted_lines_are_str.1 10 0 (fun _ => 0)
      [PyVal.dict [("type", .str "STATE"), ("value", .dict [("offset", .int 1)])]]
      c10wStF rfl,
   C10_emitted_lines_are_str.2 "offset" (.int 1) [] rfl⟩

/-! ## Heap model: `copy.deepcopy` and in-place coercion (frame property) -/

/-- Heap value: immutable primitives, or a reference to a mutable cell. -/
inductive HVal where
  | none : HVal
  | bool : Bool → HVal
  | int : Int → HVal
  | str : String → HVal
  | dt : Int → HVal
  | ref : Nat → HVal

/-- A mutable Python container: dict or list. -/
inductive Cell where
  | obj : List (String × HVal) → Cell
  | arr : List HVal → Cell

/-- The heap: cells addressed by list position; allocation appends. -/
abbrev Heap := List Cell

/-- References occurring directly in a heap value. -/
def hrefs : HVal → List Nat
  | .ref a => [a]
  | _ => []

/-- References occurring directly in a cell. -/
def cellRefs : Cell → List Nat
  | .obj fields => fields.flatMap (fun kv => hrefs kv.2)
  | .arr items => items.flatMap hrefs

/-- Field lookup in a heap dict. -/
def hdget (fields : List (String × HVal)) (k : String) : Option HVal :=
  match fields with
  | [] => Option.none
  | (k', v) :: rest => if k' = k then some v else hdget rest k

/-- In-place field assignment in a heap dict. -/
def hdset (fields : List (String × HVal)) (k : String) (v : HVal) :
    List (String × HVal) :=
  match fields with
  | [] => [(k, v)]
  | (k', v') :: rest =>
      if k' = k then (k', v) :: rest else (k', v') :: hdset rest k v

mutual

/-- `copy.deepcopy` on the heap: primitives are shared (immutable),
containers are rebuilt bottom-up in freshly allocated cells. -/
def deepcopy : Nat → Heap → HVal → Option (Heap × HVal)
  | 0, _, _ => Option.none
  | Nat.succ fuel, h, v =>
      match v with
      | .ref a =>
          (match h[a]? with
           | some (.obj fields) =>
               (match deepcopyFields fuel h fields with
                | some (h1, fields1) =>
                    some (h1 ++ [.obj fields1], .ref h1.length)
                | Option.none => Option.none)
           | some (.arr items) =>
               (match deepcopyList fuel h items with
                | some (h1, items1) =>
                    some (h1 ++ [.arr items1], .ref h1.length)
                | Option.none => Option.none)
           | Option.none => Option.none)
      | w => some (h, w)

/-- Deep copy of dict fields, threading the heap. -/
def deepcopyFields : Nat → Heap → List (String × HVal) →
    Option (Heap × List (String × HVal))
  | 0, _, _ => Option.none
  | Nat.succ _, h, [] => some (h, [])
  | Nat.succ fuel, h, (k, v) :: rest =>
      match deepcopy fuel h v with
      | some (h1, v1) =>
          (match deepcopyFields fuel h1 rest with
           | some (h2, rest1) => some (h2, (k, v1) :: rest1)
           | Option.none => Option.none)
      | Option.none => Option.none

/-- Deep copy of list items, threading the heap. -/
def deepcopyList : Nat → Heap → List HVal → Option (Heap × List HVal)
  | 0, _, _ => Option.none
  | Nat.succ _, h, [] => some (h, [])
  | Nat.succ fuel, h, v :: rest =>
      match deepcopy fuel h v with
      | some (h1, v1) =>
          (match deepcopyList fuel h1 rest with
           | some (h2, rest1) => some (h2, v1 :: rest1)
           | Option.none => Option.none)
      | Option.none => Option.none

end

mutual

/-- Read a heap value out as a decoded value (for the read-only validation
step of the transform). -/
def readOut : Nat → Heap → HVal → Option PyVal
  | 0, _, _ => Option.none
  | Nat.succ fuel, h, v =>
      match v with
      | .none => some .none
      | .bool b => some (.bool b)
      | .int n => some (.int n)
      | .str s => some (.str s)
      | .dt t => some (.dt t)
      | .ref a =>
          match h[a]? with
          | some (.obj fields) => (readOutFields fuel h fields).map PyVal.dict
          | some (.arr items) => (readOutList fuel h items).map PyVal.list
          | Option.none => Option.none

/-- Read out dict fields. -/
def readOutFields : Nat → Heap → List (String × HVal) →
    Option (List (String × PyVal))
  | 0, _, _ => Option.none
  | Nat.succ _, _, [] => some []
  | Nat.succ fuel, h, (k, v) :: rest =>
      match readOut fuel h v with
      | some pv =>
          (match readOutFields fuel h rest with
           | some prest => some ((k, pv) :: prest)
           | Option.none => Option.none)
      | Option.none => Option.none

/-- Read out list items. -/
def readOutList : Nat → Heap → List HVal → Option (List PyVal)
  | 0, _, _ => Option.none
  | Nat.succ _, _, [] => some []
  | Nat.succ fuel, h, v :: rest =>
      match readOut fuel h v with
      | some pv =>
          (match readOutList fuel h rest with
           | some prest => some (pv :: prest)
           | Option.none => Option.none)
      | Option.none => Option.none

end

mutual

/-- In-place date-time coercion on the heap, mirroring the mutation skeleton
of the extended validator (recursive walk through `properties`, then the
`set_defaults` second loop writing `datetime` values). -/
def coerceHeap : Nat → Int → PyVal → Heap → HVal → Except PyErr Heap
  | 0, _, _, _, _ => .error (.typeErr "RecursionError")
  | Nat.succ fuel, off, schema, h, v =>
      match schema with
      | .dict sfields =>
          match dget sfields "properties" with
          | some (.dict props) =>
              (match v with
               | .ref a =>
                   (match h[a]? with
                    | some (.obj _) =>
                        (match coerceFieldsGo fuel off props h a with
                         | .ok h1 => coercePropsGo fuel off props h1 a
                         | .error e => .error e)
                    | _ => .ok h)
               | _ => .ok h)
          | some _ => .error (.typeErr "properties value must be a dict")
          | Option.none => .ok h
      | _ => .error (.typeErr "schema must be a dict")

/-- First loop: recursively coerce each declared property present in the
object at address `a`. -/
def coerceFieldsGo : Nat → Int → List (String × PyVal) → Heap → Nat →
    Except PyErr Heap
  | 0, _, _, _, _ => .error (.typeErr "RecursionError")
  | Nat.succ _, _, [], h, _ => .ok h
  | Nat.succ fuel, off, (p, sub) :: rest, h, a =>
      match h[a]? with
      | some (.obj fields) =>
          (match hdget fields p with
           | some child =>
               (match coerceHeap fuel off sub h child with
                | .ok h1 => coerceFieldsGo fuel off rest h1 a
                | .error e => .error e)
           | Option.none => coerceFieldsGo fuel off rest h a)
      | _ => .ok h

/-- Second loop: overwrite, in place, each declared property whose subschema
flags `format: "date-time"` and whose present value is a non-`None` string. -/
def coercePropsGo : Nat → Int → List (String × PyVal) → Heap → Nat →
    Except PyErr Heap
  | 0, _, _, _, _ => .error (.typeErr "RecursionError")
  | Nat.succ _, _, [], h, _ => .ok h
  | Nat.succ fuel, off, (p, sub) :: rest, h, a =>
      match sub.pyContains "format" with
      | .error e => .error e
      | .ok false => coercePropsGo fuel off rest h a
      | .ok true =>
          match sub.pySubscript "format" with
          | .error e => .error e
          | .ok f =>
              if pvEq f (.str "date-time") then
                match h[a]? with
                | some (.obj fields) =>
                    (match hdget fields p with
                     | some (.str s) =>
                         (match rfc3339ToTimestamp s with
                          | some t =>
                              coercePropsGo fuel off rest
                                (h.set a (.obj (hdset fields p (.dt (t + off))))) a
                          | Option.none =>
                              .error (.generic ("Error parsing property " ++ p ++
                                ", value " ++ s) (some (.typeErr "InvalidRFC3339Error"))))
                     | some .none => coercePropsGo fuel off rest h a
                     | some _ =>
                         .error (.generic ("Error parsing property " ++ p)
                           (some (.typeErr "rfc3339_to_timestamp expects a string")))
                     | Option.none => coercePropsGo fuel off rest h a)
                | _ => .ok h
              else coercePropsGo fuel off rest h a

end

/-- Heap-level `parse_record` body: deep-copy the record, validate the copy
read-only (per the C6 decomposition, validation in the value model), then
run the in-place coercion on the copy. -/
def heapParseRecord (fuel : Nat) (off : Int) (schema : PyVal) (h : Heap)
    (root : HVal) : Except PyErr (Heap × HVal) :=
  match deepcopy fuel h root with
  | Option.none => .error (.typeErr "RecursionError")
  | some (h1, copyRoot) =>
      match readOut fuel h1 copyRoot with
      | Option.none => .error (.typeErr "RecursionError")
      | some inst =>
          match pureValidate fuel schema inst with
          | .error e => .error e
          | .ok _ =>
              match coerceHeap fuel off schema h1 copyRoot with
              | .ok h2 => .ok (h2, copyRoot)
              | .error e => .error e

/-- All cells at addresses `≥ n` reference only addresses `≥ n` (in range). -/
def NewClosed (n : Nat) (h : Heap) : Prop :=
  ∀ a, n ≤ a → ∀ c, h[a]? = some c → ∀ b ∈ cellRefs c, n ≤ b ∧ b < h.length

/-- Postcondition of a deep copy from heap `h`: the old heap is a prefix of
the result, the returned references land in the fresh region, and the fresh
region is closed. -/
def DCPost (h h' : Heap) (refs : List Nat) : Prop :=
  (∃ ext, h' = h ++ ext) ∧
  (∀ a ∈ refs, h.length ≤ a ∧ a < h'.length) ∧
  NewClosed h.length h'

theorem newClosed_full (h : Heap) : NewClosed h.length h := by
  intro a ha c hc b _
  rw [List.getElem?_eq_none ha] at hc
  cases hc

theorem DCPost_comp {h h1 h2 : Heap} {r1 r2 : List Nat}
    (hp1 : DCPost h h1 r1) (hp2 : DCPost h1 h2 r2) :
    DCPost h h2 (r1 ++ r2) := by
  obtain ⟨⟨e1, he1⟩, hr1, hc1⟩ := hp1
  obtain ⟨⟨e2, he2⟩, hr2, hc2⟩ := hp2
  have hlen1 : h.length ≤ h1.length := by rw [he1]; simp
  have hlen2 : h1.length ≤ h2.length := by rw [he2]; simp
  refine ⟨⟨e1 ++ e2, by rw [he2, he1, List.append_assoc]⟩, ?_, ?_⟩
  · intro a ha
    rcases List.mem_append.mp ha with hm | hm
    · exact ⟨(hr1 a hm).1, lt_of_lt_of_le (hr1 a hm).2 hlen2⟩
    · exact ⟨le_trans hlen1 (hr2 a hm).1, (hr2 a hm).2⟩
  · intro a ha c hc b hb
    by_cases hlt : a < h1.length
    · have heq : h2[a]? = h1[a]? := by
        rw [he2]; exact List.getElem?_append_left hlt
      rw [heq] at hc
      have hres := hc1 a ha c hc b hb
      exact ⟨hres.1, lt_of_lt_of_le hres.2 hlen2⟩
    · have hres := hc2 a (le_of_not_lt hlt) c hc b hb
      exact ⟨le_trans hlen1 hres.1, hres.2⟩

theorem DCPost_alloc {h h1 : Heap} (c : Cell)
    (hp : DCPost h h1 (cellRefs c)) :
    DCPost h (h1 ++ [c]) [h1.length] := by
  obtain ⟨⟨e1, he1⟩, hr1, hc1⟩ := hp
  have hlen1 : h.length ≤ h1.length := by rw [he1]; simp
  refine ⟨⟨e1 ++ [c], by rw [he1, List.append_assoc]⟩, ?_, ?_⟩
  · intro a ha
    simp only [List.mem_singleton] at ha
    subst ha
    exact ⟨hlen1, by simp⟩
  · intro a ha d hd b hb
    by_cases hlt : a < h1.length
    · rw [List.getElem?_append_left hlt] at hd
      have hres := hc1 a ha d hd b hb
      refine ⟨hres.1, ?_⟩
      simp only [List.length_append, List.length_singleton]
      omega
    · have haeq : a = h1.length := by
        by_contra hne
        have hge : (h1 ++ [c]).length ≤ a := by
          simp only [List.length_append, List.length_singleton]
          omega
        rw [List.getElem?_eq_none hge] at hd
        cases hd
      subst haeq
      have hcell : (h1 ++ [c])[h1.length]? = some c := by
        rw [List.getElem?_append_right (le_refl _)]
        simp
      rw [hcell] at hd
      injection hd with hdc
      subst hdc
      refine ⟨(hr1 b hb).1, ?_⟩
      simp only [List.length_append, List.length_singleton]
      have := (hr1 b hb).2
      omega

/-- Deep copy allocates only fresh cells: the source heap is preserved as a
prefix of the result, and the copy lives entirely in the closed fresh region. -/
theorem deepcopy_fresh :
    ∀ fuel : Nat,
      (∀ h v h' v', deepcopy fuel h v = some (h', v') →
          DCPost h h' (hrefs v')) ∧
      (∀ h fs h' fs', deepcopyFields fuel h fs = some (h', fs') →
          DCPost h h' (fs'.flatMap (fun kv => hrefs kv.2))) ∧
      (∀ h items h' items', deepcopyList fuel h items = some (h', items') →
          DCPost h h' (items'.flatMap hrefs)) := by
  intro fuel
  induction fuel with
  | zero =>
      refine ⟨?_, ?_, ?_⟩ <;> intro h x h' x' hc <;>
        simp [deepcopy, deepcopyFields, deepcopyList] at hc
  | succ fuel ih =>
      obtain ⟨ih1, ih2, ih3⟩ := ih
      refine ⟨?_, ?_, ?_⟩
      · intro h v h' v' hc
        cases v with
        | none =>
            simp only [deepcopy, Option.some.injEq, Prod.mk.injEq] at hc
            obtain ⟨he, hv⟩ := hc; subst he; subst hv
            exact ⟨⟨[], by simp⟩, by simp [hrefs], newClosed_full h⟩
        | bool b =>
            simp only [deepcopy, Option.some.injEq, Prod.mk.injEq] at hc
            obtain ⟨he, hv⟩ := hc; subst he; subst hv
            exact ⟨⟨[], by simp⟩, by simp [hrefs], newClosed_full h⟩
        | int n =>
            simp only [deepcopy, Option.some.injEq, Prod.mk.injEq] at hc
            obtain ⟨he, hv⟩ := hc; subst he; subst hv
            exact ⟨⟨[], by simp⟩, by simp [hrefs], newClosed_full h⟩
        | str s =>
            simp only [deepcopy, Option.some.injEq, Prod.mk.injEq] at hc
            obtain ⟨he, hv⟩ := hc; subst he; subst hv
            exact ⟨⟨[], by simp⟩, by simp [hrefs], newClosed_full h⟩
        | dt t =>
            simp only [deepcopy, Option.some.injEq, Prod.mk.injEq] at hc
            obtain ⟨he, hv⟩ := hc; subst he; subst hv
            exact ⟨⟨[], by simp⟩, by simp [hrefs], newClosed_full h⟩
        | ref a =>
            simp only [deepcopy] at hc
            cases hha : h[a]? with
            | none => simp only [hha] at hc; cases hc
            | some c =>
                simp only [hha] at hc
                cases c with
                | obj fields =>
                    cases hdf : deepcopyFields fuel h fields with
                    | none => simp only [hdf] at hc; cases hc
                    | some p =>
                        obtain ⟨h1, fields1⟩ := p
                        simp only [hdf, Option.some.injEq, Prod.mk.injEq] at hc
                        obtain ⟨he, hv⟩ := hc
                        subst he; subst hv
                        exact DCPost_alloc (Cell.obj fields1)
                          (ih2 h fields h1 fields1 hdf)
                | arr items =>
                    cases hdl : deepcopyList fuel h items with
                    | none => simp only [hdl] at hc; cases hc
                    | some p =>
                        obtain ⟨h1, items1⟩ := p
                        simp only [hdl, Option.some.injEq, Prod.mk.injEq] at hc
                        obtain ⟨he, hv⟩ := hc
                        subst he; subst hv
                        exact DCPost_alloc (Cell.arr items1)
                          (ih3 h items h1 items1 hdl)
      · intro h fs h' fs' hc
        cases fs with
        | nil =>
            simp only [deepcopyFields, Option.some.injEq, Prod.mk.injEq] at hc
            obtain ⟨he, hv⟩ := hc; subst he; subst hv
            exact ⟨⟨[], by simp⟩, by simp, newClosed_full h⟩
        | cons kv rest =>
            obtain ⟨k, v⟩ := kv
            simp only [deepcopyFields] at hc
            cases hdc1 : deepcopy fuel h v with
            | none => simp only [hdc1] at hc; cases hc
            | some p1 =>
                obtain ⟨h1, v1⟩ := p1
                simp only [hdc1] at hc
                cases hdc2 : deepcopyFields fuel h1 rest with
                | none => simp only [hdc2] at hc; cases hc
                | some p2 =>
                    obtain ⟨h2, rest1⟩ := p2
                    simp only [hdc2, Option.some.injEq, Prod.mk.injEq] at hc
                    obtain ⟨he, hv⟩ := hc; subst he; subst hv
                    exact DCPost_comp (ih1 h v h1 v1 hdc1)
                      (ih2 h1 rest h2 rest1 hdc2)
      · intro h items h' items' hc
        cases items with
        | nil =>
            simp only [deepcopyList, Option.some.injEq, Prod.mk.injEq] at hc
            obtain ⟨he, hv⟩ := hc; subst he; subst hv
            exact ⟨⟨[], by simp⟩, by simp, newClosed_full h⟩
        | cons v rest =>
            simp only [deepcopyList] at hc
            cases hdc1 : deepcopy fuel h v with
            | none => simp only [hdc1] at hc; cases hc
            | some p1 =>
                obtain ⟨h1, v1⟩ := p1
                simp only [hdc1] at hc
                cases hdc2 : deepcopyList fuel h1 rest with
                | none => simp only [hdc2] at hc; cases hc
                | some p2 =>
                    obtain ⟨h2, rest1⟩ := p2
                    simp only [hdc2, Option.some.injEq, Prod.mk.injEq] at hc
                    obtain ⟨he, hv⟩ := hc; subst he; subst hv
                    exact DCPost_comp (ih1 h v h1 v1 hdc1)
                      (ih3 h1 rest h2 rest1 hdc2)

/-- Frame of the in-place coercion: the heap keeps its length, every cell
below `n` is untouched, and the region at `≥ n` stays closed. -/
def CFrame (n : Nat) (h h' : Heap) : Prop :=
  h'.length = h.length ∧ (∀ a, a < n → h'[a]? = h[a]?) ∧ NewClosed n h'

theorem CFrame_rfl {n : Nat} {h : Heap} (hcl : NewClosed n h) : CFrame n h h :=
  ⟨rfl, fun _ _ => rfl, hcl⟩

theorem CFrame_comp {n : Nat} {h h1 h2 : Heap}
    (hp1 : CFrame n h h1) (hp2 : CFrame n h1 h2) : CFrame n h h2 :=
  ⟨hp2.1.trans hp1.1, fun a ha => (hp2.2.1 a ha).trans (hp1.2.1 a ha), hp2.2.2⟩

/-- Rewriting a property to a primitive never adds references. -/
theorem hdset_refs_subset (fields : List (String × HVal)) (k : String)
    (t : Int) :
    ∀ b ∈ (hdset fields k (.dt t)).flatMap (fun kv => hrefs kv.2),
      b ∈ fields.flatMap (fun kv => hrefs kv.2) := by
  induction fields with
  | nil => intro b hb; simp [hdset, hrefs] at hb
  | cons kv rest ih =>
      intro b hb
      obtain ⟨k', v'⟩ := kv
      by_cases hk : k' = k
      · simp only [hdset, if_pos hk, List.flatMap_cons, List.mem_append] at hb
        simp only [List.flatMap_cons, List.mem_append]
        cases hb with
        | inl hm => simp [hrefs] at hm
        | inr hm => exact Or.inr hm
      · simp only [hdset, if_neg hk, List.flatMap_cons, List.mem_append] at hb
        simp only [List.flatMap_cons, List.mem_append]
        cases hb with
        | inl hm => exact Or.inl hm
        | inr hm => exact Or.inr (ih b hm)

/-- A value found by field lookup contributes its references to the cell. -/
theorem hdget_refs (fields : List (String × HVal)) (k : String) (child : HVal)
    (hg : hdget fields k = some child) :
    ∀ b ∈ hrefs child, b ∈ cellRefs (.obj fields) := by
  induction fields with
  | nil => simp [hdget] at hg
  | cons kv rest ih =>
      obtain ⟨k', v'⟩ := kv
      by_cases hk : k' = k
      · simp only [hdget, if_pos hk, Option.some.injEq] at hg
        subst hg
        intro b hb
        simp only [cellRefs, List.flatMap_cons, List.mem_append]
        exact Or.inl hb
      · simp only [hdget, if_neg hk] at hg
        intro b hb
        have hm := ih hg b hb
        simp only [cellRefs] at hm
        simp only [cellRefs, List.flatMap_cons, List.mem_append]
        exact Or.inr hm

theorem newClosed_set {n : Nat} {h : Heap} {a : Nat} {c c' : Cell}
    (hn : n ≤ a) (hc : h[a]? = some c)
    (hsub : ∀ b ∈ cellRefs c', b ∈ cellRefs c)
    (hcl : NewClosed n h) : NewClosed n (h.set a c') := by
  intro a' ha' d hd b hb
  rw [List.length_set]
  have halt : a < h.length := (List.getElem?_eq_some_iff.mp hc).1
  by_cases heq : a = a'
  · subst heq
    rw [List.getElem?_set_eq_of_lt c' halt] at hd
    injection hd with hdc
    subst hdc
    exact hcl a hn c hc b (hsub b hb)
  · rw [List.getElem?_set_ne heq] at hd
    exact hcl a' ha' d hd b hb

/-- Overwriting a cell at `a ≥ n` with a cell holding no new references is a
frame step. -/
theorem cframe_set {n : Nat} {h : Heap} {a : Nat} {c c' : Cell}
    (hn : n ≤ a) (hc : h[a]? = some c)
    (hsub : ∀ b ∈ cellRefs c', b ∈ cellRefs c)
    (hcl : NewClosed n h) : CFrame n h (h.set a c') := by
  refine ⟨List.length_set h a c', ?_, newClosed_set hn hc hsub hcl⟩
  intro a' ha'
  have hne : a ≠ a' := by omega
  exact List.getElem?_set_ne hne

/-- The in-place coercion only writes at addresses `≥ n`, provided the root
only references that region and the region is closed. -/
theorem coerce_frame :
    ∀ fuel : Nat,
      (∀ off schema h v h', (∀ b ∈ hrefs v, n0 ≤ b) → NewClosed n0 h →
          coerceHeap fuel off schema h v = .ok h' → CFrame n0 h h') ∧
      (∀ off props h a h', n0 ≤ a → NewClosed n0 h →
          coerceFieldsGo fuel off props h a = .ok h' → CFrame n0 h h') ∧
      (∀ off props h a h', n0 ≤ a → NewClosed n0 h →
          coercePropsGo fuel off props h a = .ok h' → CFrame n0 h h') := by
  intro fuel
  induction fuel with
  | zero =>
      refine ⟨?_, ?_, ?_⟩
      · intro off schema h v h' _ _ hc
        simp [coerceHeap] at hc
      · intro off props h a h' _ _ hc
        simp [coerceFieldsGo] at hc
      · intro off props h a h' _ _ hc
        simp [coercePropsGo] at hc
  | succ fuel ih =>
      obtain ⟨ih1, ih2, ih3⟩ := ih
      refine ⟨?_, ?_, ?_⟩
      · intro off schema h v h' hv hcl hc
        cases schema with
        | dict sfields =>
            simp only [coerceHeap] at hc
            cases hgp : dget sfields "properties" with
            | none =>
                simp only [hgp] at hc
                injection hc with he
                subst he
                exact CFrame_rfl hcl
            | some pv =>
                simp only [hgp] at hc
                cases pv with
                | dict props =>
                    cases v with
                    | ref a =>
                        cases hha : h[a]? with
                        | none =>
                            simp only [hha] at hc
                            injection hc with he; subst he
                            exact CFrame_rfl hcl
                        | some c =>
                            simp only [hha] at hc
                            cases c with
                            | obj fields =>
                                cases hfg : coerceFieldsGo fuel off props h a with
                                | error e => simp only [hfg] at hc; cases hc
                                | ok h1 =>
                                    simp only [hfg] at hc
                                    have hna : n0 ≤ a := by
                                      have := hv a (by simp [hrefs])
                                      exact this
                                    have hp1 := ih2 off props h a h1 hna hcl hfg
                                    have hp2 := ih3 off props h1 a h' hna hp1.2.2 hc
                                    exact CFrame_comp hp1 hp2
                            | arr items =>
                                injection hc with he; subst he
                                exact CFrame_rfl hcl
                    | none => injection hc with he; subst he; exact CFrame_rfl hcl
                    | bool b => injection hc with he; subst he; exact CFrame_rfl hcl
                    | int n => injection hc with he; subst he; exact CFrame_rfl hcl
                    | str s => injection hc with he; subst he; exact CFrame_rfl hcl
                    | dt t => injection hc with he; subst he; exact CFrame_rfl hcl
                | none => cases hc
                | bool b => cases hc
                | int n => cases hc
                | str s => cases hc
                | dt t => cases hc
                | list l => cases hc
        | none => simp [coerceHeap] at hc
        | bool b => simp [coerceHeap] at hc
        | int n => simp [coerceHeap] at hc
        | str s => simp [coerceHeap] at hc
        | dt t => simp [coerceHeap] at hc
        | list l => simp [coerceHeap] at hc
      · intro off props h a h' hna hcl hc
        cases props with
        | nil =>
            simp only [coerceFieldsGo] at hc
            injection hc with he; subst he
            exact CFrame_rfl hcl
        | cons psub rest =>
            obtain ⟨p, sub⟩ := psub
            simp only [coerceFieldsGo] at hc
            cases hha : h[a]? with
            | none =>
                simp only [hha] at hc
                injection hc with he; subst he
                exact CFrame_rfl hcl
            | some c =>
                simp only [hha] at hc
                cases c with
                | arr items =>
                    injection hc with he; subst he
                    exact CFrame_rfl hcl
                | obj fields =>
                    cases hget : hdget fields p with
                    | none =>
                        simp only [hget] at hc
                        exact ih2 off rest h a h' hna hcl hc
                    | some child =>
                        simp only [hget] at hc
                        cases hch : coerceHeap fuel off sub h child with
                        | error e => simp only [hch] at hc; cases hc
                        | ok h1 =>
                            simp only [hch] at hc
                            have hchild : ∀ b ∈ hrefs child, n0 ≤ b := by
                              intro b hb
                              exact (hcl a hna (.obj fields) hha b
                                (hdget_refs fields p child hget b hb)).1
                            have hp1 := ih1 off sub h child h1 hchild hcl hch
                            have hp2 := ih2 off rest h1 a h' hna hp1.2.2 hc
                            exact CFrame_comp hp1 hp2
      · intro off props h a h' hna hcl hc
        cases props with
        | nil =>
            simp only [coercePropsGo] at hc
            injection hc with he; subst he
            exact CFrame_rfl hcl
        | cons psub rest =>
            obtain ⟨p, sub⟩ := psub
            simp only [coercePropsGo] at hc
            cases hcf : sub.pyContains "format" with
            | error e => simp only [hcf] at hc; cases hc
            | ok cf =>
                simp only [hcf] at hc
                cases cf with
                | false => exact ih3 off rest h a h' hna hcl hc
                | true =>
                    cases hsf : sub.pySubscript "format" with
                    | error e => simp only [hsf] at hc; cases hc
                    | ok f =>
                        simp only [hsf] at hc
                        by_cases hdt : pvEq f (.str "date-time") = true
                        · rw [if_pos hdt] at hc
                          cases hha : h[a]? with
                          | none =>
                              simp only [hha] at hc
                              injection hc with he; subst he
                              exact CFrame_rfl hcl
                          | some c =>
                              simp only [hha] at hc
                              cases c with
                              | arr items =>
                                  injection hc with he; subst he
                                  exact CFrame_rfl hcl
                              | obj fields =>
                                  cases hget : hdget fields p with
                                  | none =>
                                      simp only [hget] at hc
                                      exact ih3 off rest h a h' hna hcl hc
                                  | some w =>
                                      simp only [hget] at hc
                                      cases w with
                                      | str s =>
                                          cases hts : rfc3339ToTimestamp s with
                                          | none => simp only [hts] at hc; cases hc
                                          | some t =>
                                              simp only [hts] at hc
                                              have hsub : ∀ b ∈ cellRefs
                                                  (Cell.obj (hdset fields p (.dt (t + off)))),
                                                  b ∈ cellRefs (Cell.obj fields) :=
                                                hdset_refs_subset fields p (t + off)
                                              have hstep := cframe_set hna hha hsub hcl
                                              have hp2 := ih3 off rest
                                                (h.set a (.obj (hdset fields p (.dt (t + off)))))
                                                a h' hna hstep.2.2 hc
                                              exact CFrame_comp hstep hp2
                                      | none => exact ih3 off rest h a h' hna hcl hc
                                      | bool b => cases hc
                                      | int n => cases hc
                                      | dt t => cases hc
                                      | ref r => cases hc
                        · rw [if_neg hdt] at hc
                          exact ih3 off rest h a h' hna hcl hc

/-- C5: for every record the transform succeeds on, the caller's input is
unchanged after the call: `parse_record` deep-copies the record before
validating and coercing, so every heap cell that existed before the call —
in particular the entire original record structure — is untouched, and the
returned document lives entirely in freshly allocated cells. -/
theorem C5_no_input_mutation (fuel : Nat) (off : Int) (schema : PyVal)
    (h : Heap) (root : HVal) (h2 : Heap) (copyRoot : HVal)
    (hrun : heapParseRecord fuel off schema h root = .ok (h2, copyRoot)) :
    (∀ a, a < h.length → h2[a]? = h[a]?) ∧
    (∀ b ∈ hrefs copyRoot, h.length ≤ b) := by
  unfold heapParseRecord at hrun
  cases hdc : deepcopy fuel h root with
  | none => simp only [hdc] at hrun; cases hrun
  | some p =>
      obtain ⟨h1, cr⟩ := p
      simp only [hdc] at hrun
      cases hro : readOut fuel h1 cr with
      | none => simp only [hro] at hrun; cases hrun
      | some inst =>
          simp only [hro] at hrun
          cases hpv : pureValidate fuel schema inst with
          | error e => simp only [hpv] at hrun; cases hrun
          | ok u =>
              simp only [hpv] at hrun
              cases hch : coerceHeap fuel off schema h1 cr with
              | error e => simp only [hch] at hrun; cases hrun
              | ok h2' =>
                  simp only [hch, Except.ok.injEq, Prod.mk.injEq] at hrun
                  obtain ⟨hh2, hcr⟩ := hrun
                  subst hh2; subst hcr
                  obtain ⟨⟨ext, hext⟩, hrefsIn, hcl⟩ :=
                    (deepcopy_fresh fuel).1 h root h1 cr hdc
                  have hframe := (coerce_frame fuel).1 off schema h1 cr h2'
                    (fun b hb => (hrefsIn b hb).1) hcl hch
                  constructor
                  · intro a ha
                    have h1a : h1[a]? = h[a]? := by
                      rw [hext]; exact List.getElem?_append_left ha
                    rw [hframe.2.1 a ha, h1a]
                  · intro b hb
                    exact (hrefsIn b hb).1

def c5wSchema : PyVal :=
  .dict [("properties", .dict [("when", .dict [("format", .str "date-time")])])]

def c5wH : Heap := [.obj [("when", .str "2000-01-01T00:00:00Z")], .arr [.ref 0]]

def c5wH2 : Heap :=
  [.obj [("when", .str "2000-01-01T00:00:00Z")], .arr [.ref 0],
   .obj [("when", .dt 946688400)]]

/-- C5 witness: a concrete heap holding a record (and a second pre-existing
cell referencing it); the transform succeeds, returns a fresh copy at a new
address, and both original cells are byte-for-byte unchanged. -/
theorem C5_no_input_mutation_witness :
    heapParseRecord 12 3600 c5wSchema c5wH (.ref 0) = .ok (c5wH2, .ref 2) ∧
    c5wH2[0]? = c5wH[0]? ∧ c5wH2[1]? = c5wH[1]? ∧ c5wH.length ≤ 2 :=
  ⟨rfl,
   (C5_no_input_mutation 12 3600 c5wSchema c5wH (.ref 0) c5wH2 (.ref 2)
      rfl).1 0 (by decide),
   (C5_no_input_mutation 12 3600 c5wSchema c5wH (.ref 0) c5wH2 (.ref 2)
      rfl).1 1 (by decide),
   (C5_no_input_mutation 12 3600 c5wSchema c5wH (.ref 0) c5wH2 (.ref 2)
      rfl).2 2 (by simp [hrefs])⟩
